import Mathlib

/-!
# Symbolic differentiator: lexer, parser and differentiation engine

A shallow embedding of `src/main.cpp` and `src/parse_ast.h`.

Modelling conventions.

* A `std::string` is a `List Char`, one list element per `char`; a token
  literal is a Lean `String`.
* `std::unique_ptr<Expr>` is the type `Expr`; the empty pointer (what is left
  behind by `std::move`) is the constructor `Expr.null`.
* A function taking arguments by non-const reference returns the updated
  values next to its result.
* C++ behaviour that ends the run abnormally (an uncaught exception, a null
  dereference, `back()` on an empty vector, an index past the end of a vector)
  is an explicit error value.
* `int` variables are integers. The indices and counters of the loops are
  unbounded (they stay far below `2 ^ 31` on any input line a machine holds);
  where a value leaves the range of `int` on a short input the result is the
  one the x86-64 build gives: a `double` outside the range converts to
  `-2 ^ 31`, and `constant * -1` and `power - 1` wrap around. The conversion
  to `size_t` in the substring constructor is taken modulo `2 ^ 64`.
* Coefficients (`double` in the source) are the finite integer-valued
  doubles, held as integers, with `-0` held as `0`; the product in
  `differentiate` is rounded to the nearest double (ties to even), which
  changes it only above `2 ^ 53`. The parser gives no other coefficient: it
  stores every value in an `int` first.
* Loops carry a fuel argument and the entry points pass one unit per
  character (lexer) or one more than the number of tokens (parser); that it is
  never used up is proved below (`SD_scan_fuel`, `SD_parse_to_ast_fuel`).
-/

namespace SymbDiff

/-! ## Tokens (`parse_ast.h`, lines 8-24) -/

inductive SD_tokenType where
  | SD_VARIABLE
  | SD_NUMBER
  | SD_PLUS
  | SD_MINUS
  | SD_MULTIPLY
  | SD_CARET
  | SD_ENDEXPR
  deriving DecidableEq, Repr

structure SD_token where
  ttype : SD_tokenType
  literal : String
  deriving DecidableEq, Repr

/-! ## Lexer (`main.cpp`, lines 7-72) -/

def is_digit (c : Char) : Bool :=
  decide ('0' ≤ c) && decide (c ≤ '9')

def is_letter (c : Char) : Bool :=
  (decide ('A' ≤ c) && decide (c ≤ 'Z')) || (decide ('a' ≤ c) && decide (c ≤ 'z'))

/-- The character `input[i]` of a `std::string`: position `size()` holds the
terminating `'\0'`. -/
def charAt (input : List Char) (i : Nat) : Char :=
  input.getD i '\x00'

/-- Conversion of an `int` to `size_t`. -/
def toSizeT (z : Int) : Nat :=
  (z % (2 ^ 64 : Int)).toNat

/-- The constructor `std::string(input, pos, len)`: `none` stands for the
`std::out_of_range` exception thrown when `pos > input.size()`; otherwise the
characters `[pos, pos + min(len, size - pos))`. -/
def substring (input : List Char) (pos len : Int) : Option String :=
  if input.length < toSizeT pos then none
  else some (String.mk ((input.drop (toSizeT pos)).take (toSizeT len)))

/-- The inner loop `while (is_digit(input[i])) ++i;` returning the final `i`. -/
def digitRun (input : List Char) : Nat → Nat → Nat
  | 0, i => i
  | fuel + 1, i =>
    if is_digit (charAt input i) then digitRun input fuel (i + 1) else i

/-- The ways a call of `SD_scan` can end, each with the final values of the
three reference arguments where the function returns. -/
inductive ScanResult where
  /-- The function returns `true`. -/
  | success (input : List Char) (output : List SD_token) (var : Char)
  /-- The message `Error: Unknown symbol 'c'` is written and the function returns `false`. -/
  | unknownSymbol (c : Char) (input : List Char) (output : List SD_token) (var : Char)
  /-- The message `Error: Attempt to re-bind differentiating variable 'v' with 'c'` is
  written and the function returns `false`. -/
  | rebind (v c : Char) (input : List Char) (output : List SD_token) (var : Char)
  /-- The substring constructor throws `std::out_of_range`, which nothing catches. -/
  | outOfRange
  /-- The model ran out of fuel. -/
  | outOfFuel
  deriving DecidableEq, Repr

/-- What one pass through the body of the `for` loop does: either the loop
goes on, with the index the next iteration starts at (the increment included)
and the new values of `start`, `input`, `output` and `var`, or the function
is left. -/
inductive ScanStep where
  | next (i : Nat) (start : Int) (input : List Char) (output : List SD_token) (var : Char)
  | done (r : ScanResult)
  deriving DecidableEq, Repr

/-- The `switch` statement of `SD_scan` (lines 21-67) at index `i`, followed by
the `i++` of the loop. -/
def scanBody (i : Nat) (start : Int) (input : List Char) (output : List SD_token)
    (var : Char) : ScanStep :=
  let c := charAt input i
  if c = ' ' then
    .next (i + 1) (i + 1) input output var
  else if c = '+' then
    .next (i + 1) (i + 1) input (output ++ [⟨.SD_PLUS, "+"⟩]) var
  else if c = '-' then
    .next (i + 1) (i + 1) input (output ++ [⟨.SD_MINUS, "-"⟩]) var
  else if c = '*' then
    .next (i + 1) (i + 1) input (output ++ [⟨.SD_MULTIPLY, "*"⟩]) var
  else if c = '^' then
    .next (i + 1) (i + 1) input (output ++ [⟨.SD_CARET, "^"⟩]) var
  else if is_digit c then
    -- `while (is_digit(input[i])) ++i;`, the token, `start += i; i--`
    let j := digitRun input (input.length - i) i
    match substring input start (j - start) with
    | none => .done .outOfRange
    | some lit => .next j (start + j) input (output ++ [⟨.SD_NUMBER, lit⟩]) var
  else if is_letter c then
    let c1 := c.toLower
    let input1 := input.set i c1
    if var = '\x00' then
      .next (i + 1) (start + 1) input1 (output ++ [⟨.SD_VARIABLE, toString c1.toNat⟩]) c1
    else if var ≠ c1 then
      .done (.rebind var c1 input1 output var)
    else
      .next (i + 1) (start + 1) input1 (output ++ [⟨.SD_VARIABLE, toString c1.toNat⟩]) var
  else
    .done (.unknownSymbol c input output var)

/-- The `for` loop of `SD_scan`, entered at index `i` with scan start `start`,
and the two statements after it. -/
def scanLoop : Nat → Nat → Int → List Char → List SD_token → Char → ScanResult
  | 0, i, _, input, output, var =>
    if i < input.length then .outOfFuel
    else .success input (output ++ [⟨.SD_ENDEXPR, "$"⟩]) var
  | fuel + 1, i, start, input, output, var =>
    if i < input.length then
      match scanBody i start input output var with
      | .next i1 start1 input1 output1 var1 => scanLoop fuel i1 start1 input1 output1 var1
      | .done r => r
    else .success input (output ++ [⟨.SD_ENDEXPR, "$"⟩]) var

/-- The value of the reference argument `var` when `SD_scan` returns. -/
def ScanResult.boundVar : ScanResult → Option Char
  | .success _ _ var => some var
  | .unknownSymbol _ _ _ var => some var
  | .rebind _ _ _ _ var => some var
  | .outOfRange => none
  | .outOfFuel => none

/-- The function `SD_scan(input, output, var)`. -/
def SD_scan (input : List Char) (output : List SD_token) (var : Char) : ScanResult :=
  scanLoop input.length 0 0 input output var

/-- The loop states a call `SD_scan(input0, output0, var0)` goes through: the state at
entry to the loop, and from a state whose index is inside the string the state the
body leaves for the next iteration. The first component is the fuel left in the model. -/
inductive ScanReaches (input0 : List Char) (output0 : List SD_token) (var0 : Char) :
    Nat → Nat → Int → List Char → List SD_token → Char → Prop where
  | entry : ScanReaches input0 output0 var0 input0.length 0 0 input0 output0 var0
  | step {fuel i : Nat} {start : Int} {input : List Char} {output : List SD_token}
      {var : Char} {i1 : Nat} {start1 : Int} {input1 : List Char}
      {output1 : List SD_token} {var1 : Char} :
      ScanReaches input0 output0 var0 (fuel + 1) i start input output var →
      i < input.length →
      scanBody i start input output var = .next i1 start1 input1 output1 var1 →
      ScanReaches input0 output0 var0 fuel i1 start1 input1 output1 var1

/-! ## Expression nodes (`parse_ast.h`, lines 26-131) -/

/-- A `std::unique_ptr<Expr>`: one of the three node kinds, or the empty
pointer. `Botched` is the parse-failure node. -/
inductive Expr where
  | Atomic (constant : Int) (power : Int)
  | Binary (op : Char) (left right : Expr)
  | Botched (message : String)
  | null
  deriving DecidableEq, Repr

/-- Abnormal ends of a run that the source does not handle. -/
inductive Fault where
  /-- An access `tokens[curr]` with `curr` past the end of the vector. -/
  | outOfBounds
  /-- A call of `std::stod` on a literal that is not a non-empty digit run:
  `std::invalid_argument` where the literal does not start with a number (the empty
  literal for one); other literals are outside the model. -/
  | stodArgument
  /-- A call of `std::stod` on a digit run beyond the range of `double`, which throws
  `std::out_of_range`. -/
  | stodRange
  /-- The product `constant * power` in `differentiate` is beyond the range of `double`:
  the source stores an infinity, which the coefficients of the model do not include. -/
  | infiniteProduct
  /-- A member call through an empty `unique_ptr`. -/
  | nullDeref
  /-- A call of `back()` on an empty vector. -/
  | emptyBack
  /-- The model ran out of fuel. -/
  | outOfFuel
  deriving DecidableEq, Repr

deriving instance DecidableEq for Except

/-! ## Parser (`parse_ast.h`, lines 133-286) -/

/-- The access `tokens[curr]`. -/
def tokenAt (tokens : List SD_token) (curr : Nat) : Except Fault SD_token :=
  match tokens.get? curr with
  | some t => .ok t
  | none => .error .outOfBounds

/-- Decimal value of a list of digit characters. -/
def digitsValue (cs : List Char) : Nat :=
  cs.foldl (fun acc c => 10 * acc + (c.toNat - '0'.toNat)) 0

/-- The value an `int` holds after an arithmetic result `z` that may have left its
range: `z` modulo `2 ^ 32`, taken in `-2 ^ 31 .. 2 ^ 31 - 1`. -/
def wrapInt (z : Int) : Int :=
  (z + 2 ^ 31) % 2 ^ 32 - 2 ^ 31

/-- The conversion to `int` of a `double` holding the integer `z`: `z` itself inside the
range of `int`, and `-2 ^ 31` outside it (the result of the x86-64 conversion
instruction; also for an infinite value). -/
def convertToInt (z : Int) : Int :=
  if -2 ^ 31 ≤ z ∧ z < 2 ^ 31 then z else -2 ^ 31

/-- The integer `z` rounded to the nearest `double`, ties to even: unchanged below
`2 ^ 53` in magnitude, otherwise cut to 53 significant bits. -/
def roundDouble (z : Int) : Int :=
  let a := z.natAbs
  if a < 2 ^ 53 then z
  else
    let q := 2 ^ ((Nat.toDigits 2 a).length - 53)
    let m := a / q
    let r := a % q
    let m1 := if q < 2 * r ∨ (2 * r = q ∧ m % 2 = 1) then m + 1 else m
    if z < 0 then -((m1 * q : Nat) : Int) else ((m1 * q : Nat) : Int)

/-- The least magnitude that rounds to an infinite `double`, `2 ^ 1024 - 2 ^ 970` (half
a unit in the last place above the largest finite `double`), written with exponents small
enough to be evaluated on sight (`doubleOverflow_eq`). -/
def doubleOverflow : Nat :=
  (2 ^ 54 - 1) * (2 ^ 194) ^ 5

/-- The magnitude of `z` is below the least one that rounds to an infinite `double`. -/
def inDoubleRange (z : Int) : Bool :=
  decide (z.natAbs < doubleOverflow)

/-- The initialisation `int n = std::stod(literal)` for a literal that is a non-empty
run of decimal digits: its decimal value below `2 ^ 31`; `-2 ^ 31` (the conversion of an
out-of-range `double`) from there up to the range of `double`; beyond that `std::stod`
throws. -/
def stodInt (literal : String) : Except Fault Int :=
  if literal.data = [] ∨ ¬ literal.data.all is_digit = true then .error .stodArgument
  else if digitsValue literal.data < 2 ^ 31 then .ok (digitsValue literal.data)
  else if digitsValue literal.data < doubleOverflow then .ok (-2 ^ 31)
  else .error .stodRange

/-- The assignment `constant = std::pow(constant, pow)` back to an `int`: the power
converted to `int` for an exponent at least 0; for a negative exponent the value of
`std::pow` is infinite (base 0), 1 or -1 (base 1 or -1) or below 1 in magnitude, which
converts to 0. -/
def powInt (constant pow : Int) : Int :=
  if 0 ≤ pow then convertToInt (constant ^ pow.toNat)
  else if constant = 0 then -2 ^ 31
  else if constant = 1 then 1
  else if constant = -1 then (if pow % 2 = 0 then 1 else -1)
  else 0

/-- The three diagnostics built by the parser. -/
def msgExpectedAtomic (literal : String) : String :=
  "Error: Unexpected symbol '" ++ literal ++ "'. Expected a number/variable instead"

def msgExpectedExponent (literal : String) : String :=
  "Error: Unexpected symbol '" ++ literal ++ "' following '^'. Expected a number as exponent"

def msgExpectedEnd (literal : String) : String :=
  "Error: Unexpected symbol '" ++ literal ++ "'. Expected the implicit end-of-expression token"

/-- Lines 198-202 of `parse_atomic`: apply the sign, in `int` arithmetic, and build the
node. -/
def mkAtomic (negate : Bool) (constant power : Int) : Expr :=
  .Atomic (if negate then wrapInt (constant * -1) else constant) power

/-- Lines 154-202 of `parse_atomic`: what follows the first token, with `curr`
already stepped past it; `startIsNumber` is the test
`tokens[start_token].ttype == SD_NUMBER`. -/
def parse_atomic_rest (negate : Bool) (tokens : List SD_token) (startIsNumber : Bool)
    (constant power : Int) (curr : Nat) : Except Fault (Expr × Nat) :=
  match tokenAt tokens curr with
  | .error e => .error e
  | .ok t1 =>
    if t1.ttype = .SD_CARET then
      match tokenAt tokens (curr + 1) with
      | .error e => .error e
      | .ok t2 =>
        if t2.ttype = .SD_NUMBER then
          match stodInt t2.literal with
          | .error e => .error e
          | .ok pow =>
            if startIsNumber then
              .ok (mkAtomic negate (powInt constant pow) power, curr + 2)
            else .ok (mkAtomic negate constant pow, curr + 2)
        else .ok (.Botched (msgExpectedExponent t2.literal), curr + 1)
    else if t1.ttype = .SD_VARIABLE then
      match tokenAt tokens (curr + 1) with
      | .error e => .error e
      | .ok t2 =>
        if t2.ttype = .SD_CARET then
          match tokenAt tokens (curr + 2) with
          | .error e => .error e
          | .ok t3 =>
            if t3.ttype = .SD_NUMBER then
              match stodInt t3.literal with
              | .error e => .error e
              | .ok pow => .ok (mkAtomic negate constant pow, curr + 3)
            else .ok (.Botched (msgExpectedExponent t3.literal), curr + 2)
        else .ok (mkAtomic negate constant 1, curr + 1)
    else .ok (mkAtomic negate constant power, curr)

/-- The function `parse_atomic(negate, tokens, curr)`, returning the node and the new
`curr`. -/
def parse_atomic (negate : Bool) (tokens : List SD_token) (curr : Nat) :
    Except Fault (Expr × Nat) :=
  match tokenAt tokens curr with
  | .error e => .error e
  | .ok t0 =>
    if t0.ttype = .SD_NUMBER then
      match stodInt t0.literal with
      | .error e => .error e
      | .ok constant => parse_atomic_rest negate tokens true constant 0 (curr + 1)
    else if t0.ttype = .SD_VARIABLE then
      parse_atomic_rest negate tokens false 1 1 (curr + 1)
    else .ok (.Botched (msgExpectedAtomic t0.literal), curr)

/-- The loop of `parse_unary` counting MINUS tokens, then the call of
`parse_atomic`. -/
def parse_unary_loop : Nat → List SD_token → Nat → Nat → Except Fault (Expr × Nat)
  | 0, _, _, _ => .error .outOfFuel
  | fuel + 1, tokens, negation_count, curr =>
    match tokenAt tokens curr with
    | .error e => .error e
    | .ok t =>
      if t.ttype = .SD_MINUS then parse_unary_loop fuel tokens (negation_count + 1) (curr + 1)
      else parse_atomic (decide (negation_count % 2 ≠ 0)) tokens curr

def parse_unary (fuel : Nat) (tokens : List SD_token) (curr : Nat) : Except Fault (Expr × Nat) :=
  parse_unary_loop fuel tokens 0 curr

/-- The `while` loop of `parse_factor`. -/
def parse_factor_loop : Nat → List SD_token → Expr → Nat → Except Fault (Expr × Nat)
  | 0, _, _, _ => .error .outOfFuel
  | fuel + 1, tokens, left, curr =>
    match tokenAt tokens curr with
    | .error e => .error e
    | .ok t =>
      if t.ttype = .SD_MULTIPLY then
        match parse_unary fuel tokens (curr + 1) with
        | .error e => .error e
        | .ok (.Botched m, curr1) => .ok (.Botched m, curr1)
        | .ok (right, curr1) => parse_factor_loop fuel tokens (.Binary '*' left right) curr1
      else .ok (left, curr)

def parse_factor (fuel : Nat) (tokens : List SD_token) (curr : Nat) : Except Fault (Expr × Nat) :=
  match parse_unary fuel tokens curr with
  | .error e => .error e
  | .ok (.Botched m, curr1) => .ok (.Botched m, curr1)
  | .ok (left, curr1) => parse_factor_loop fuel tokens left curr1

/-- The `while` loop of `parse_term`; `op` is the first character of the
operator token's literal. -/
def parse_term_loop : Nat → List SD_token → Expr → Nat → Except Fault (Expr × Nat)
  | 0, _, _, _ => .error .outOfFuel
  | fuel + 1, tokens, left, curr =>
    match tokenAt tokens curr with
    | .error e => .error e
    | .ok t =>
      if t.ttype = .SD_MINUS ∨ t.ttype = .SD_PLUS then
        let op := t.literal.data.headD '\x00'
        match parse_factor fuel tokens (curr + 1) with
        | .error e => .error e
        | .ok (.Botched m, curr1) => .ok (.Botched m, curr1)
        | .ok (right, curr1) => parse_term_loop fuel tokens (.Binary op left right) curr1
      else .ok (left, curr)

def parse_term (fuel : Nat) (tokens : List SD_token) (curr : Nat) : Except Fault (Expr × Nat) :=
  match parse_factor fuel tokens curr with
  | .error e => .error e
  | .ok (.Botched m, curr1) => .ok (.Botched m, curr1)
  | .ok (left, curr1) => parse_term_loop fuel tokens left curr1

def parse_binary (fuel : Nat) (tokens : List SD_token) (curr : Nat) : Except Fault (Expr × Nat) :=
  match parse_term fuel tokens curr with
  | .error e => .error e
  | .ok (binary, curr1) =>
    match tokenAt tokens curr1 with
    | .error e => .error e
    | .ok t =>
      if t.ttype ≠ .SD_ENDEXPR then .ok (.Botched (msgExpectedEnd t.literal), curr1 + 1)
      else .ok (binary, curr1 + 1)

/-- The function `SD_parse_to_ast(tokens, false)`. Every loop iteration of the parser steps
past one token, so `tokens.length + 1` units of fuel are never used up. -/
def SD_parse_to_ast (tokens : List SD_token) : Except Fault Expr :=
  match parse_binary (tokens.length + 1) tokens 0 with
  | .error e => .error e
  | .ok (ast, _) => .ok ast

/-- A parse result that is not the model's fuel fault and, when a node is returned,
leaves `curr` at most at `tokens.length` and not before where it started. -/
def InBounds (tokens : List SD_token) (curr : Nat) (r : Except Fault (Expr × Nat)) : Prop :=
  r ≠ .error .outOfFuel ∧
  ∀ e curr1, r = .ok (e, curr1) → curr ≤ curr1 ∧ curr1 ≤ tokens.length

/-- A parse result that is in bounds and, when the node returned is not a failure
node, has stepped past at least one token. -/
def Advances (tokens : List SD_token) (curr : Nat) (r : Except Fault (Expr × Nat)) : Prop :=
  InBounds tokens curr r ∧
  ∀ e curr1, r = .ok (e, curr1) → (∀ m, e ≠ .Botched m) → curr < curr1

/-! ## Differentiation engine (`parse_ast.h`, lines 62-68 and 93-124) -/

/-- The pair `expr_vec.back()` / `expr_vec.pop_back()`: the last element and
the vector without it. -/
def popBack (expr_vec : List Expr) : Except Fault (Expr × List Expr) :=
  match expr_vec.getLast? with
  | some e => .ok (e, expr_vec.dropLast)
  | none => .error .emptyBack

/-- The call `e->differentiate(expr_vec)`. The result is the node as the call
leaves it (a product node has handed both children over to the two new terms
and keeps two empty pointers) together with the updated `expr_vec`. -/
def differentiate : Expr → List Expr → Except Fault (Expr × List Expr)
  | .Atomic constant power, expr_vec =>
    if inDoubleRange (constant * power) then
      let new_constant := roundDouble (constant * power)
      let new_power := if power = 0 then 0 else wrapInt (power - 1)
      .ok (.Atomic constant power, expr_vec ++ [.Atomic new_constant new_power])
    else .error .infiniteProduct
  | .Binary op left right, expr_vec =>
    if op = '*' then
      match differentiate left expr_vec with
      | .error e => .error e
      | .ok (left1, vec1) =>
        match differentiate right vec1 with
        | .error e => .error e
        | .ok (right1, vec2) =>
          match popBack vec2 with
          | .error e => .error e
          | .ok (right_diff, vec3) =>
            match popBack vec3 with
            | .error e => .error e
            | .ok (left_diff, vec4) =>
              let prod_left := Expr.Binary '*' left_diff right1
              let prod_right := Expr.Binary '*' right_diff left1
              .ok (.Binary op .null .null, vec4 ++ [prod_left] ++ [prod_right])
    else if op = '+' ∨ op = '-' then
      match differentiate left expr_vec with
      | .error e => .error e
      | .ok (left1, vec1) =>
        match differentiate right vec1 with
        | .error e => .error e
        | .ok (right1, vec2) =>
          match popBack vec2 with
          | .error e => .error e
          | .ok (right_diff, vec3) =>
            match popBack vec3 with
            | .error e => .error e
            | .ok (left_diff, vec4) =>
              let sum := Expr.Binary op left_diff right_diff
              .ok (.Binary op left1 right1, vec4 ++ [sum])
    else .ok (.Binary op left right, expr_vec)
  | .Botched message, expr_vec => .ok (.Botched message, expr_vec)
  | .null, _ => .error .nullDeref

/-- The terms left in an initially empty `expr_vec` by `ast->differentiate`,
as in `SD_differentiate_and_print`. -/
def derivativeTerms (ast : Expr) : Except Fault (List Expr) :=
  match differentiate ast [] with
  | .error e => .error e
  | .ok (_, expr_vec) => .ok expr_vec

/-! ## Printer (`parse_ast.h`, lines 52-60 and 87-91; `main.cpp`, lines 74-82) -/

/-- The fraction digits of a six-digit mantissa `m` (its last five digits)
with trailing zeros removed, preceded by the decimal point when any is left. -/
def mantissaFraction (m : Nat) : String :=
  let frac := (Nat.toDigits 10 (100000 + m % 100000)).drop 1
  let kept := (frac.reverse.dropWhile (fun c => c = '0')).reverse
  if kept = [] then "" else String.mk ('.' :: kept)

/-- Text written by `std::cout << constant` for an integer-valued `double`
(default format, six significant digits): the plain integer below `10 ^ 6`,
otherwise the mantissa rounded to six digits (ties to even) in scientific
notation with an exponent of at least two digits. -/
def showConstant (constant : Int) : String :=
  let a := constant.natAbs
  let sign := if constant < 0 then "-" else ""
  if a < 10 ^ 6 then sign ++ toString a
  else
    let len := (Nat.toDigits 10 a).length
    let q := 10 ^ (len - 6)
    let m := a / q
    let r := a % q
    let m1 := if q < 2 * r ∨ (2 * r = q ∧ m % 2 = 1) then m + 1 else m
    let m2 := if m1 = 10 ^ 6 then 10 ^ 5 else m1
    let e := if m1 = 10 ^ 6 then len else len - 1
    sign ++ toString (m2 / 100000) ++ mantissaFraction m2 ++ "e+"
      ++ (if e < 10 then "0" else "") ++ toString e

/-- The call `e->print_as_expr(var)`, returning the text written. -/
def print_as_expr : Expr → Char → Except Fault String
  | .Atomic constant power, var =>
    let s1 := if (constant ≥ 1 ∧ power = 0) ∨ (constant > 1 ∧ power ≥ 1)
      then showConstant constant else ""
    let s2 := if power = 1 then String.singleton var
      else if power ≥ 1 then String.singleton var ++ "^" ++ toString power
      else ""
    .ok (s1 ++ s2)
  | .Binary op left right, var =>
    match print_as_expr left var with
    | .error e => .error e
    | .ok l =>
      match print_as_expr right var with
      | .error e => .error e
      | .ok r => .ok (l ++ " " ++ String.singleton op ++ " " ++ r)
  | .Botched _, _ => .ok ""
  | .null, _ => .error .nullDeref

/-- The printing loop of `SD_differentiate_and_print` from index `i` on, where
`n` is `expr_vec.size()`. -/
def printTerms (var : Char) (n : Nat) : Nat → List Expr → Except Fault String
  | _, [] => .ok ""
  | i, e :: rest =>
    match print_as_expr e var with
    | .error err => .error err
    | .ok s =>
      match printTerms var n (i + 1) rest with
      | .error err => .error err
      | .ok t => .ok (s ++ (if i < n - 1 then " + " else "\n") ++ t)

/-- The function `SD_differentiate_and_print(ast, var)`, returning the text written. -/
def SD_differentiate_and_print (ast : Expr) (var : Char) : Except Fault String :=
  match derivativeTerms ast with
  | .error e => .error e
  | .ok expr_vec => printTerms var expr_vec.length 0 expr_vec

/-! ## Polynomial reading of an expression -/

/-- Value at `x` of the polynomial an expression stands for: `Atomic c p` is
`c * x ^ p`, a `Binary` node the sum, difference or product of its operands. -/
def Expr.eval (x : Int) : Expr → Int
  | .Atomic constant power => constant * x ^ power.toNat
  | .Binary op left right =>
    if op = '+' then left.eval x + right.eval x
    else if op = '-' then left.eval x - right.eval x
    else if op = '*' then left.eval x * right.eval x
    else 0
  | .Botched _ => 0
  | .null => 0

/-- Value at `x` of the formal derivative of that polynomial. -/
def Expr.evalDeriv (x : Int) : Expr → Int
  | .Atomic constant power => constant * power * x ^ (power.toNat - 1)
  | .Binary op left right =>
    if op = '+' then left.evalDeriv x + right.evalDeriv x
    else if op = '-' then left.evalDeriv x - right.evalDeriv x
    else if op = '*' then left.evalDeriv x * right.eval x + left.eval x * right.evalDeriv x
    else 0
  | .Botched _ => 0
  | .null => 0

/-- The sum of the values at `x` of a sequence of terms. -/
def termsEval (x : Int) (terms : List Expr) : Int :=
  (terms.map (Expr.eval x)).sum

/-- A tree of `Atomic` nodes with non-negative exponent and `Binary` nodes
with operator `+`, `-` or `*`: the trees a successful parse builds. -/
def Expr.isPoly : Expr → Bool
  | .Atomic _ power => decide (0 ≤ power)
  | .Binary op left right =>
    (decide (op = '+') || decide (op = '-') || decide (op = '*')) && left.isPoly && right.isPoly
  | .Botched _ => false
  | .null => false

/-- No empty pointer is reachable: the node is present and every `Binary`
node below it has both children present. -/
def Expr.complete : Expr → Bool
  | .Atomic _ _ => true
  | .Binary _ left right => left.complete && right.complete
  | .Botched _ => true
  | .null => false

/-! ## One input line through lexer and parser (`main.cpp`, lines 103-116) -/

/-- What `main` holds after `SD_scan` and `SD_parse_to_ast` on one line, with
an empty token vector and the given bound variable: `none` when the scan does
not return `true`. -/
def parseLine (line : String) (var : Char) : Option (Except Fault Expr) :=
  match SD_scan line.data [] var with
  | .success _ tokens _ => some (SD_parse_to_ast tokens)
  | _ => none

/-- The text `main` writes for one line on which the scan returns `true`: the parser's
failure message, or the printed derivative. -/
def runLine (line : String) (var : Char) : Option (Except Fault String) :=
  match SD_scan line.data [] var with
  | .success _ tokens var1 =>
    match SD_parse_to_ast tokens with
    | .ok (.Botched m) => some (.ok (m ++ "\n"))
    | .ok ast => some (SD_differentiate_and_print ast var1)
    | .error e => some (.error e)
  | _ => none

/-! ## One pass through the loop of `main` (`main.cpp`, lines 94-117) -/

/-- How a pass through the loop of `main` ends when it does not come back to the
prompt. -/
inductive Crash where
  /-- The call of `SD_scan` throws `std::out_of_range`. -/
  | scanOutOfRange
  /-- The parser, the differentiation or the printing ends abnormally. -/
  | fault (f : Fault)
  deriving DecidableEq, Repr

/-- The text of the message written by the unknown-symbol branch of `SD_scan`. -/
def msgUnknownSymbol (c : Char) : String :=
  "Error: Unknown symbol '" ++ String.singleton c ++ "'\n"

/-- The text of the message written by the re-bind branch of `SD_scan`. -/
def msgRebind (v c : Char) : String :=
  "Error: Attempt to re-bind differentiating variable '" ++ String.singleton v ++ "' with '"
    ++ String.singleton c ++ "'\n"

/-- Lines 103-117 of `main`, reached for an input line that is neither empty nor an exit
command: the text written and the value of `var` the next pass starts with. The token
vector is empty at the call of `SD_scan`, since every pass ends with `tokens.clear()`. -/
def mainIteration (input : List Char) (var : Char) : Except Crash (String × Char) :=
  match SD_scan input [] var with
  | .success _ tokens var1 =>
    match SD_parse_to_ast tokens with
    | .error e => .error (.fault e)
    | .ok (.Botched m) => .ok (m ++ "\n", var1)
    | .ok ast =>
      match SD_differentiate_and_print ast var1 with
      | .error e => .error (.fault e)
      | .ok text => .ok (text, var1)
  | .unknownSymbol c _ _ var1 => .ok (msgUnknownSymbol c, var1)
  | .rebind v c _ _ var1 => .ok (msgRebind v c, var1)
  | .outOfRange => .error .scanOutOfRange
  | .outOfFuel => .error (.fault .outOfFuel)

/-- The test of lines 94-95 of `main`: the line is one of the exit commands. -/
def isExitCommand (input : List Char) : Bool :=
  decide (input = "q".data) || decide (input = "quit".data) || decide (input = "exit".data)

/-- How one pass through the loop of `main` ends for a line that was read. -/
inductive PassResult where
  /-- The line is an exit command: the text is written and `main` returns 0. -/
  | quit (text : String)
  /-- The loop goes on to the next prompt, after writing the text, with this `var`. -/
  | again (text : String) (var : Char)
  /-- The process ends abnormally. -/
  | crashed (c : Crash)
  deriving DecidableEq, Repr

/-- One pass through the loop of `main` (lines 94-117) for a line that `std::getline`
has read, without the prompt. -/
def mainPass (input : List Char) (var : Char) : PassResult :=
  if isExitCommand input then
    .quit (if input = "q".data then "quit..\n" else "quit...\n")
  else if input = [] then .again "" var
  else
    match mainIteration input var with
    | .ok (text, var1) => .again text var1
    | .error c => .crashed c

/-! ## Trees without a product node -/

/-- A tree of `Atomic` nodes, with an exponent in `0 .. 2 ^ 31 - 1` and a coefficient whose
product with the exponent is in the range of `double`, and of `Binary` nodes with
operator `+` or `-`. -/
def Expr.isSumTree : Expr → Bool
  | .Atomic constant power =>
    decide (0 ≤ power) && decide (power < 2 ^ 31) && inDoubleRange (constant * power)
  | .Binary op left right =>
    (decide (op = '+') || decide (op = '-')) && left.isSumTree && right.isSumTree
  | .Botched _ => false
  | .null => false

/-- The tree of the same shape and operators in which each `Atomic (c, p)` is replaced by
`Atomic (c * p, max (p - 1) 0)`. -/
def Expr.atomwiseDerivative : Expr → Expr
  | .Atomic constant power => .Atomic (constant * power) (max (power - 1) 0)
  | .Binary op left right => .Binary op left.atomwiseDerivative right.atomwiseDerivative
  | .Botched message => .Botched message
  | .null => .null

/-- The tree of the same shape and operators in which each `Atomic (c, p)` is replaced by
`Atomic (c * p rounded to the nearest double, max (p - 1) 0)`. -/
def Expr.atomwiseDerivativeRounded : Expr → Expr
  | .Atomic constant power => .Atomic (roundDouble (constant * power)) (max (power - 1) 0)
  | .Binary op left right =>
    .Binary op left.atomwiseDerivativeRounded right.atomwiseDerivativeRounded
  | .Botched message => .Botched message
  | .null => .null

/-- Every product of a coefficient with its exponent is at most `2 ^ 53` in magnitude, so
that it is a `double`. -/
def Expr.exactProducts : Expr → Bool
  | .Atomic constant power => decide ((constant * power).natAbs ≤ 2 ^ 53)
  | .Binary _ left right => left.exactProducts && right.exactProducts
  | .Botched _ => true
  | .null => true

/-! ## Sign of a unary operand -/

/-- The node with the sign of its coefficient changed, as lines 198-202 of `parse_atomic`
build it when `negate` is set. -/
def Expr.negated : Expr → Expr
  | .Atomic constant power => .Atomic (wrapInt (constant * -1)) power
  | e => e

/-! ## Shape of the parser's result and well-formed token sequences -/

/-- A tree made only of `Atomic` nodes whose exponent passes the test `ok` and of `Binary`
nodes: no failure node and no empty pointer anywhere. -/
def Expr.isTreeWith (ok : Int → Bool) : Expr → Bool
  | .Atomic _ power => ok power
  | .Binary _ left right => left.isTreeWith ok && right.isTreeWith ok
  | .Botched _ => false
  | .null => false

/-- A tree made only of `Atomic` nodes with exponent at least 0 and of `Binary` nodes. -/
def Expr.isTree (e : Expr) : Bool :=
  e.isTreeWith (fun power => decide (0 ≤ power))

/-- A lone failure node, or a tree of `Atomic` nodes whose exponent passes the test `ok`
and of `Binary` nodes. -/
def Expr.isFailureOrTreeWith (ok : Int → Bool) (e : Expr) : Prop :=
  (∃ m, e = .Botched m) ∨ e.isTreeWith ok = true

/-- A lone failure node, or a tree of `Atomic` nodes with exponent at least 0 and of
`Binary` nodes. -/
def Expr.isFailureOrTree (e : Expr) : Prop :=
  (∃ m, e = .Botched m) ∨ e.isTree = true

/-- The token sequence is not empty and its last token is END. -/
def EndTerminated (tokens : List SD_token) : Prop :=
  ∃ t, tokens.getLast? = some t ∧ t.ttype = .SD_ENDEXPR

/-- The literal is a non-empty run of decimal digits whose value fits in an `int`. -/
def literalFits (literal : String) : Bool :=
  decide (literal.data ≠ []) && literal.data.all is_digit
    && decide (digitsValue literal.data < 2 ^ 31)

/-- Every NUMBER token of the sequence has a literal that fits. -/
def NumbersFit (tokens : List SD_token) : Prop :=
  ∀ t ∈ tokens, t.ttype = .SD_NUMBER → literalFits t.literal = true

/-- The literal is a non-empty run of decimal digits whose value is in the range of
`double`: one that `std::stod` converts. -/
def literalConverts (literal : String) : Bool :=
  decide (literal.data ≠ []) && literal.data.all is_digit
    && decide (digitsValue literal.data < doubleOverflow)

/-- Every NUMBER token of the sequence has a literal that `std::stod` converts. -/
def NumbersConvert (tokens : List SD_token) : Prop :=
  ∀ t ∈ tokens, t.ttype = .SD_NUMBER → literalConverts t.literal = true

/-- No NUMBER token of the sequence has a literal whose value is `2 ^ 31` or more. -/
def ValuesFit (tokens : List SD_token) : Prop :=
  ∀ t ∈ tokens, t.ttype = .SD_NUMBER → digitsValue t.literal.data < 2 ^ 31

/-- A parse result that is a node together with a cursor inside the token sequence. -/
def Returns (tokens : List SD_token) (r : Except Fault (Expr × Nat)) : Prop :=
  ∃ e next, r = .ok (e, next) ∧ next < tokens.length

/-! ## Well-formed token sequences and the trees the grammar gives them -/

/-- From `curr` to `next` the tokens are a unary operand: `n` MINUS tokens, then tokens on
which the atomic rule gives an `Atomic`; `node` is that `Atomic` with its coefficient
negated, in `int` arithmetic, when `n` is odd. -/
def UnaryAt (tokens : List SD_token) (curr : Nat) (node : Expr) (next : Nat) : Prop :=
  ∃ (n : Nat) (c p : Int),
    (∀ j, j < n → ∃ t, tokenAt tokens (curr + j) = .ok t ∧ t.ttype = .SD_MINUS) ∧
    parse_atomic false tokens (curr + n) = .ok (.Atomic c p, next) ∧
    node = .Atomic (if n % 2 = 1 then wrapInt (-c) else c) p

/-- From `curr` to `next` the tokens are `* u1 * u2 ... * uk`: each of the `k ≥ 0` unary
operands, with nodes `us`, is preceded by a MULTIPLY token. -/
inductive StarRun (tokens : List SD_token) : Nat → List Expr → Nat → Prop where
  | nil (curr : Nat) : StarRun tokens curr [] curr
  | cons {curr mid next : Nat} {t : SD_token} {u : Expr} {us : List Expr} :
      tokenAt tokens curr = .ok t → t.ttype = .SD_MULTIPLY →
      UnaryAt tokens (curr + 1) u mid → StarRun tokens mid us next →
      StarRun tokens curr (u :: us) next

/-- From `curr` to `next` the tokens are a factor `u * u1 * ... * uk`. -/
def FactorAt (tokens : List SD_token) (curr : Nat) (u : Expr) (us : List Expr)
    (next : Nat) : Prop :=
  ∃ mid, UnaryAt tokens curr u mid ∧ StarRun tokens mid us next

/-- The left-leaning tree `((u * u1) * ...) * uk`. -/
def productTree (u : Expr) (us : List Expr) : Expr :=
  us.foldl (fun acc v => .Binary '*' acc v) u

/-- From `curr` to `next` the tokens are `o1 f1 o2 f2 ... ok fk`: each of the `k ≥ 0`
factors is preceded by the token `+` or `-`, whose character is recorded with the
operand nodes of the factor. -/
inductive SumRun (tokens : List SD_token) :
    Nat → List (Char × Expr × List Expr) → Nat → Prop where
  | nil (curr : Nat) : SumRun tokens curr [] curr
  | cons {curr mid next : Nat} {t : SD_token} {op : Char} {u : Expr} {us : List Expr}
      {rest : List (Char × Expr × List Expr)} :
      tokenAt tokens curr = .ok t →
      (t = ⟨.SD_PLUS, "+"⟩ ∧ op = '+') ∨ (t = ⟨.SD_MINUS, "-"⟩ ∧ op = '-') →
      FactorAt tokens (curr + 1) u us mid → SumRun tokens mid rest next →
      SumRun tokens curr ((op, u, us) :: rest) next

/-- The whole sequence is `f o1 f1 ... ok fk END`. -/
def WellFormed (tokens : List SD_token) (u : Expr) (us : List Expr)
    (rest : List (Char × Expr × List Expr)) : Prop :=
  ∃ mid next t, FactorAt tokens 0 u us mid ∧ SumRun tokens mid rest next ∧
    tokenAt tokens next = .ok t ∧ t.ttype = .SD_ENDEXPR

/-- The left-leaning tree `((f o1 f1) o2 ...) ok fk` over the product trees of the
factors. -/
def sumTree (u : Expr) (us : List Expr) (rest : List (Char × Expr × List Expr)) : Expr :=
  rest.foldl (fun acc f => .Binary f.1 acc (productTree f.2.1 f.2.2)) (productTree u us)

/-- Every `*` node below has an `Atomic` as its right operand. -/
def Expr.starRightAtomic : Expr → Bool
  | .Binary op left right =>
    (decide (op ≠ '*') || (match right with | .Atomic _ _ => true | _ => false))
      && left.starRightAtomic && right.starRightAtomic
  | _ => true

/-! ## Facts about characters and the digit loop -/

theorem char_le_iff (a b : Char) : a ≤ b ↔ a.toNat ≤ b.toNat := by
  simp only [Char.le_def, UInt32.le_def, BitVec.le_def, Char.toNat, UInt32.toNat]

theorem is_letter_not_digit (c : Char) (h : is_letter c = true) : is_digit c = false := by
  simp [is_letter, is_digit, char_le_iff] at *
  omega

theorem digitRun_ge (input : List Char) : ∀ fuel i, i ≤ digitRun input fuel i := by
  intro fuel
  induction fuel with
  | zero => intro i; simp [digitRun]
  | succ n ih =>
    intro i
    unfold digitRun
    split
    · exact Nat.le_trans (Nat.le_succ i) (ih (i + 1))
    · exact Nat.le_refl i

theorem digitRun_gt (input : List Char) (fuel i : Nat)
    (h : is_digit (charAt input i) = true) : i < digitRun input (fuel + 1) i := by
  unfold digitRun
  rw [if_pos h]
  exact digitRun_ge input fuel (i + 1)

/-- With one unit of fuel per remaining character the digit loop stops where the
source loop does: at a character that is not a digit (the terminating `'\0'` at the
latest). -/
theorem digitRun_stops (input : List Char) : ∀ fuel i, input.length ≤ fuel + i →
    is_digit (charAt input (digitRun input fuel i)) = false := by
  intro fuel
  induction fuel with
  | zero =>
    intro i h
    have hi : input.length ≤ i := by omega
    simp only [digitRun, charAt, List.getD, List.get?_eq_getElem?,
      List.getElem?_eq_none hi, Option.getD_none]
    decide
  | succ n ih =>
    intro i h
    unfold digitRun
    split
    · exact ih (i + 1) (by omega)
    · next hd => simpa using hd

/-! ## One pass through the loop body -/

theorem charAt_set_ne (input : List Char) (i k : Nat) (c : Char) (h : i ≠ k) :
    charAt (input.set i c) k = charAt input k := by
  simp [charAt, List.getD, List.getElem?_set_ne h]

theorem scanBody_next (i : Nat) (start : Int) (input : List Char) (output : List SD_token)
    (var : Char) (i1 : Nat) (start1 : Int) (input1 : List Char) (output1 : List SD_token)
    (var1 : Char) (hi : i < input.length)
    (h : scanBody i start input output var = .next i1 start1 input1 output1 var1) :
    i < i1 ∧ input1.length = input.length ∧
    (output1 = output ∨ ∃ t, t.ttype ≠ .SD_ENDEXPR ∧ output1 = output ++ [t]) ∧
    (var ≠ '\x00' → var1 = var) ∧
    (∀ k, i1 ≤ k → charAt input1 k = charAt input k) := by
  dsimp only [scanBody] at h
  split_ifs at h with h1 h2 h3 h4 h5 h6 h7 h8 h9
  · injection h with e1 e2 e3 e4 e5
    subst e1 e3 e4 e5
    exact ⟨Nat.lt_succ_self i, rfl, Or.inl rfl, fun _ => rfl, fun _ _ => rfl⟩
  · injection h with e1 e2 e3 e4 e5
    subst e1 e3 e4 e5
    exact ⟨Nat.lt_succ_self i, rfl, Or.inr ⟨_, by simp, rfl⟩, fun _ => rfl, fun _ _ => rfl⟩
  · injection h with e1 e2 e3 e4 e5
    subst e1 e3 e4 e5
    exact ⟨Nat.lt_succ_self i, rfl, Or.inr ⟨_, by simp, rfl⟩, fun _ => rfl, fun _ _ => rfl⟩
  · injection h with e1 e2 e3 e4 e5
    subst e1 e3 e4 e5
    exact ⟨Nat.lt_succ_self i, rfl, Or.inr ⟨_, by simp, rfl⟩, fun _ => rfl, fun _ _ => rfl⟩
  · injection h with e1 e2 e3 e4 e5
    subst e1 e3 e4 e5
    exact ⟨Nat.lt_succ_self i, rfl, Or.inr ⟨_, by simp, rfl⟩, fun _ => rfl, fun _ _ => rfl⟩
  · have hj : i < digitRun input (input.length - i) i := by
      obtain ⟨k, hk⟩ : ∃ k, input.length - i = k + 1 := ⟨input.length - i - 1, by omega⟩
      rw [hk]
      exact digitRun_gt input k i h6
    split at h
    · exact ScanStep.noConfusion h
    · injection h with e1 e2 e3 e4 e5
      subst e1 e3 e4 e5
      exact ⟨hj, rfl, Or.inr ⟨_, by simp, rfl⟩, fun _ => rfl, fun _ _ => rfl⟩
  · injection h with e1 e2 e3 e4 e5
    subst e1 e3 e4 e5
    exact ⟨Nat.lt_succ_self i, by simp, Or.inr ⟨_, by simp, rfl⟩, fun hv => absurd h8 hv,
      fun k hk => charAt_set_ne _ _ _ _ (by omega)⟩
  · injection h with e1 e2 e3 e4 e5
    subst e1 e3 e4 e5
    exact ⟨Nat.lt_succ_self i, by simp, Or.inr ⟨_, by simp, rfl⟩, fun _ => rfl,
      fun k hk => charAt_set_ne _ _ _ _ (by omega)⟩

theorem scanBody_done (i : Nat) (start : Int) (input : List Char) (output : List SD_token)
    (var : Char) (r : ScanResult) (h : scanBody i start input output var = .done r) :
    r = .outOfRange ∨ r = .unknownSymbol (charAt input i) input output var ∨
    (var ≠ '\x00' ∧ is_letter (charAt input i) = true ∧ (charAt input i).toLower ≠ var ∧
      r = .rebind var (charAt input i).toLower (input.set i (charAt input i).toLower)
        output var) := by
  dsimp only [scanBody] at h
  split_ifs at h with h1 h2 h3 h4 h5 h6 h7 h8 h9
  · split at h
    · injection h with e
      exact Or.inl e.symm
    · exact ScanStep.noConfusion h
  · injection h with e
    exact Or.inr (Or.inr ⟨h8, h7, fun hc => h9 hc.symm, e.symm⟩)
  · injection h with e
    exact Or.inr (Or.inl e.symm)

/-! ## The lexer never runs out of fuel -/

theorem scanLoop_fuel : ∀ (fuel i : Nat) (start : Int) (input : List Char)
    (output : List SD_token) (var : Char),
    input.length ≤ fuel + i → scanLoop fuel i start input output var ≠ .outOfFuel := by
  intro fuel
  induction fuel with
  | zero =>
    intro i start input output var h
    unfold scanLoop
    rw [if_neg (by omega)]
    simp
  | succ n ih =>
    intro i start input output var h
    unfold scanLoop
    by_cases hi : i < input.length
    · rw [if_pos hi]
      split
      · next i1 start1 input1 output1 var1 hb =>
        obtain ⟨h1, h2, -, -, -⟩ := scanBody_next _ _ _ _ _ _ _ _ _ _ hi hb
        apply ih
        omega
      · next r hb =>
        rcases scanBody_done _ _ _ _ _ _ hb with e | e | ⟨-, -, -, e⟩ <;> simp [e]
    · rw [if_neg hi]
      simp

theorem SD_scan_fuel (input : List Char) (output : List SD_token) (var : Char) :
    SD_scan input output var ≠ .outOfFuel :=
  scanLoop_fuel _ _ _ _ _ _ (by omega)

/-! ## Tokens and bound variable of a finished scan -/

theorem scanLoop_success_tokens : ∀ (fuel i : Nat) (start : Int) (input : List Char)
    (output : List SD_token) (var : Char) (inp : List Char) (toks : List SD_token) (v : Char),
    scanLoop fuel i start input output var = .success inp toks v →
    ∃ ts, toks = output ++ ts ++ [⟨.SD_ENDEXPR, "$"⟩] ∧ ∀ t ∈ ts, t.ttype ≠ .SD_ENDEXPR := by
  intro fuel
  induction fuel with
  | zero =>
    intro i start input output var inp toks v h
    unfold scanLoop at h
    split_ifs at h
    injection h with e1 e2 e3
    exact ⟨[], by simp [e2], by simp⟩
  | succ n ih =>
    intro i start input output var inp toks v h
    unfold scanLoop at h
    by_cases hi : i < input.length
    · rw [if_pos hi] at h
      split at h
      · next i1 start1 input1 output1 var1 hb =>
        obtain ⟨-, -, ho, -, -⟩ := scanBody_next _ _ _ _ _ _ _ _ _ _ hi hb
        obtain ⟨ts, hts, hall⟩ := ih _ _ _ _ _ _ _ _ h
        rcases ho with e | ⟨t, ht, e⟩
        · exact ⟨ts, by rw [hts, e], hall⟩
        · refine ⟨t :: ts, by rw [hts, e]; simp, ?_⟩
          intro u hu
          rcases List.mem_cons.mp hu with e1 | e1
          · rw [e1]; exact ht
          · exact hall u e1
      · next r hb =>
        subst h
        rcases scanBody_done _ _ _ _ _ _ hb with e | e | ⟨-, -, -, e⟩ <;>
          exact ScanResult.noConfusion e
    · rw [if_neg hi] at h
      injection h with e1 e2 e3
      exact ⟨[], by simp [e2], by simp⟩

theorem scanLoop_boundVar : ∀ (fuel i : Nat) (start : Int) (input : List Char)
    (output : List SD_token) (var : Char), var ≠ '\x00' →
    ∀ w, (scanLoop fuel i start input output var).boundVar = some w → w = var := by
  intro fuel
  induction fuel with
  | zero =>
    intro i start input output var hv w h
    unfold scanLoop at h
    split_ifs at h
    · simp [ScanResult.boundVar] at h
    · simpa [ScanResult.boundVar, eq_comm] using h
  | succ n ih =>
    intro i start input output var hv w h
    unfold scanLoop at h
    by_cases hi : i < input.length
    · rw [if_pos hi] at h
      split at h
      · next i1 start1 input1 output1 var1 hb =>
        obtain ⟨-, -, -, hvar, -⟩ := scanBody_next _ _ _ _ _ _ _ _ _ _ hi hb
        have e := hvar hv
        subst e
        exact ih _ _ _ _ _ hv w h
      · next r hb =>
        rcases scanBody_done _ _ _ _ _ _ hb with e | e | ⟨-, -, -, e⟩ <;>
          (subst e; simp [ScanResult.boundVar] at h)
        · exact h.symm
        · exact h.symm
    · rw [if_neg hi] at h
      simpa [ScanResult.boundVar, eq_comm] using h

theorem scanLoop_rebind : ∀ (fuel i : Nat) (start : Int) (input : List Char)
    (output : List SD_token) (var : Char) (a b : Char) (inp : List Char)
    (out : List SD_token) (w : Char), var ≠ '\x00' →
    scanLoop fuel i start input output var = .rebind a b inp out w →
    a = var ∧ b ≠ var ∧
      ∃ k, i ≤ k ∧ k < input.length ∧ is_letter (charAt input k) = true ∧
        (charAt input k).toLower = b := by
  intro fuel
  induction fuel with
  | zero =>
    intro i start input output var a b inp out w hv h
    unfold scanLoop at h
    split_ifs at h
  | succ n ih =>
    intro i start input output var a b inp out w hv h
    unfold scanLoop at h
    by_cases hi : i < input.length
    · rw [if_pos hi] at h
      split at h
      · next i1 start1 input1 output1 var1 hb =>
        obtain ⟨hlt, hlen, -, hvar, hch⟩ := scanBody_next _ _ _ _ _ _ _ _ _ _ hi hb
        have e := hvar hv
        subst e
        obtain ⟨h1, h2, k, hk1, hk2, hk3, hk4⟩ := ih _ _ _ _ _ _ _ _ _ _ hv h
        rw [hch k hk1] at hk3 hk4
        exact ⟨h1, h2, k, by omega, by omega, hk3, hk4⟩
      · next r hb =>
        subst h
        rcases scanBody_done _ _ _ _ _ _ hb with e | e | ⟨-, h2, h3, e⟩
        · exact ScanResult.noConfusion e
        · exact ScanResult.noConfusion e
        · injection e with e1 e2 e3 e4 e5
          subst e1 e2
          exact ⟨rfl, h3, i, Nat.le_refl i, hi, h2, rfl⟩
    · rw [if_neg hi] at h
      exact ScanResult.noConfusion h

theorem scanBody_letter (i : Nat) (start : Int) (input : List Char) (output : List SD_token)
    (var : Char) (hl : is_letter (charAt input i) = true) :
    scanBody i start input output var =
      if var = '\x00' then
        .next (i + 1) (start + 1) (input.set i (charAt input i).toLower)
          (output ++ [⟨.SD_VARIABLE, toString (charAt input i).toLower.toNat⟩])
          (charAt input i).toLower
      else if var ≠ (charAt input i).toLower then
        .done (.rebind var (charAt input i).toLower (input.set i (charAt input i).toLower)
          output var)
      else
        .next (i + 1) (start + 1) (input.set i (charAt input i).toLower)
          (output ++ [⟨.SD_VARIABLE, toString (charAt input i).toLower.toNat⟩]) var := by
  have h1 : charAt input i ≠ ' ' := by
    intro h; rw [h] at hl; exact absurd hl (by decide)
  have h2 : charAt input i ≠ '+' := by
    intro h; rw [h] at hl; exact absurd hl (by decide)
  have h3 : charAt input i ≠ '-' := by
    intro h; rw [h] at hl; exact absurd hl (by decide)
  have h4 : charAt input i ≠ '*' := by
    intro h; rw [h] at hl; exact absurd hl (by decide)
  have h5 : charAt input i ≠ '^' := by
    intro h; rw [h] at hl; exact absurd hl (by decide)
  have h6 : ¬ is_digit (charAt input i) = true := by
    rw [is_letter_not_digit _ hl]; simp
  dsimp only [scanBody]
  rw [if_neg h1, if_neg h2, if_neg h3, if_neg h4, if_neg h5, if_neg h6, if_pos hl]

/-! ## The loop states a scan goes through -/

theorem ScanReaches.invariant {input0 : List Char} {output0 : List SD_token} {var0 : Char}
    {fuel i : Nat} {start : Int} {input : List Char} {output : List SD_token} {var : Char}
    (h : ScanReaches input0 output0 var0 fuel i start input output var) :
    SD_scan input0 output0 var0 = scanLoop fuel i start input output var ∧
    input.length = input0.length ∧ input0.length ≤ fuel + i ∧
    (var0 ≠ '\x00' → var = var0) ∧
    (∀ k, i ≤ k → charAt input k = charAt input0 k) := by
  induction h with
  | entry => exact ⟨rfl, rfl, by omega, fun _ => rfl, fun _ _ => rfl⟩
  | step hr hi hb ih =>
    obtain ⟨h1, h2, h3, h4, h5⟩ := ih
    obtain ⟨b1, b2, -, b4, b5⟩ := scanBody_next _ _ _ _ _ _ _ _ _ _ hi hb
    refine ⟨?_, by omega, by omega, ?_, ?_⟩
    · rw [h1, scanLoop, if_pos hi, hb]
    · intro hv
      have e := h4 hv
      subst e
      exact b4 hv
    · intro k hk
      rw [b5 k hk, h5 k (by omega)]

/-! ## The parser never runs out of fuel -/

theorem tokenAt_ok (tokens : List SD_token) (curr : Nat) (t : SD_token)
    (h : tokenAt tokens curr = .ok t) : curr < tokens.length := by
  unfold tokenAt at h
  split at h
  · next heq =>
    rw [List.get?_eq_getElem?] at heq
    exact (List.getElem?_eq_some_iff.mp heq).1
  · exact Except.noConfusion h

theorem tokenAt_ne_fuel (tokens : List SD_token) (curr : Nat) :
    tokenAt tokens curr ≠ .error .outOfFuel := by
  unfold tokenAt
  split <;> simp

theorem stodInt_ne_fuel (literal : String) : stodInt literal ≠ .error .outOfFuel := by
  unfold stodInt
  split_ifs <;> simp

theorem parse_atomic_rest_inBounds (negate : Bool) (tokens : List SD_token) (b : Bool)
    (constant power : Int) (curr : Nat) :
    InBounds tokens curr (parse_atomic_rest negate tokens b constant power curr) := by
  have h0 := tokenAt_ok tokens curr
  have h1 := tokenAt_ok tokens (curr + 1)
  have h2 := tokenAt_ok tokens (curr + 2)
  unfold parse_atomic_rest InBounds
  constructor
  · repeat' split
    all_goals first
      | (intro h; injection h with h; subst h
         first
          | exact tokenAt_ne_fuel _ _ (by assumption)
          | exact stodInt_ne_fuel _ (by assumption))
      | simp
  · intro e curr1 h
    repeat' split at h
    all_goals try (have a0 := h0 _ (by assumption))
    all_goals try (have a1 := h1 _ (by assumption))
    all_goals try (have a2 := h2 _ (by assumption))
    all_goals first
      | exact Except.noConfusion h
      | (injection h with h; injection h with e1 e2; omega)

theorem parse_atomic_advances (negate : Bool) (tokens : List SD_token) (curr : Nat) :
    Advances tokens curr (parse_atomic negate tokens curr) := by
  have h0 := tokenAt_ok tokens curr
  unfold parse_atomic
  split
  · next e heq =>
    refine ⟨⟨?_, ?_⟩, ?_⟩
    · intro h; injection h with h; subst h; exact tokenAt_ne_fuel _ _ heq
    · intro e1 c1 h; exact Except.noConfusion h
    · intro e1 c1 h; exact Except.noConfusion h
  · next t0 heq =>
    have a0 := h0 _ heq
    split_ifs with hn hv
    · split
      · next e hs =>
        refine ⟨⟨?_, ?_⟩, ?_⟩
        · intro h; injection h with h; subst h; exact stodInt_ne_fuel _ hs
        · intro e1 c1 h; exact Except.noConfusion h
        · intro e1 c1 h; exact Except.noConfusion h
      · next c hs =>
        obtain ⟨r1, r2⟩ := parse_atomic_rest_inBounds negate tokens true c 0 (curr + 1)
        refine ⟨⟨r1, ?_⟩, ?_⟩
        · intro e1 c1 h; have := r2 e1 c1 h; omega
        · intro e1 c1 h _; have := r2 e1 c1 h; omega
    · obtain ⟨r1, r2⟩ := parse_atomic_rest_inBounds negate tokens false 1 1 (curr + 1)
      refine ⟨⟨r1, ?_⟩, ?_⟩
      · intro e1 c1 h; have := r2 e1 c1 h; omega
      · intro e1 c1 h _; have := r2 e1 c1 h; omega
    · refine ⟨⟨by simp, ?_⟩, ?_⟩
      · intro e1 c1 h
        injection h with h; injection h with e1 e2
        omega
      · intro e1 c1 h hb
        injection h with h; injection h with e1 e2
        exact absurd e1.symm (hb _)

theorem parse_unary_loop_advances (tokens : List SD_token) : ∀ (fuel negation_count curr : Nat),
    curr ≤ tokens.length → tokens.length < fuel + curr →
    Advances tokens curr (parse_unary_loop fuel tokens negation_count curr) := by
  intro fuel
  induction fuel with
  | zero => intro n curr h1 h2; omega
  | succ k ih =>
    intro n curr h1 h2
    unfold parse_unary_loop
    split
    · next e heq =>
      refine ⟨⟨?_, ?_⟩, ?_⟩
      · intro h; injection h with h; subst h; exact tokenAt_ne_fuel _ _ heq
      · intro e1 c1 h; exact Except.noConfusion h
      · intro e1 c1 h; exact Except.noConfusion h
    · next t heq =>
      have a0 := tokenAt_ok _ _ _ heq
      split_ifs with hm
      · obtain ⟨⟨r1, r2⟩, r3⟩ := ih (n + 1) (curr + 1) (by omega) (by omega)
        refine ⟨⟨r1, ?_⟩, ?_⟩
        · intro e1 c1 h; have := r2 e1 c1 h; omega
        · intro e1 c1 h _; have := r2 e1 c1 h; omega
      · exact parse_atomic_advances _ tokens curr

theorem parse_unary_advances (tokens : List SD_token) (fuel curr : Nat)
    (h1 : curr ≤ tokens.length) (h2 : tokens.length < fuel + curr) :
    Advances tokens curr (parse_unary fuel tokens curr) :=
  parse_unary_loop_advances tokens fuel 0 curr h1 h2

theorem InBounds.error (tokens : List SD_token) (curr : Nat) (e : Fault)
    (h : e ≠ .outOfFuel) : InBounds tokens curr (.error e) :=
  ⟨fun h1 => h (by injection h1), fun _ _ h1 => Except.noConfusion h1⟩

theorem InBounds.ok (tokens : List SD_token) (curr : Nat) (e : Expr) (curr1 : Nat)
    (h1 : curr ≤ curr1) (h2 : curr1 ≤ tokens.length) : InBounds tokens curr (.ok (e, curr1)) := by
  refine ⟨by simp, ?_⟩
  intro e1 c1 h
  injection h with h; injection h with e1 e2
  omega

theorem InBounds.mono (tokens : List SD_token) (curr curr0 : Nat)
    (r : Except Fault (Expr × Nat)) (h : InBounds tokens curr0 r) (hc : curr ≤ curr0) :
    InBounds tokens curr r :=
  ⟨h.1, fun e c1 h1 => ⟨Nat.le_trans hc (h.2 e c1 h1).1, (h.2 e c1 h1).2⟩⟩

theorem Advances.error_ne (tokens : List SD_token) (curr : Nat)
    (r : Except Fault (Expr × Nat)) (e : Fault) (h : Advances tokens curr r)
    (hr : r = .error e) : e ≠ .outOfFuel := by
  intro he
  subst he
  exact h.1.1 hr

theorem parse_factor_loop_inBounds (tokens : List SD_token) : ∀ (fuel : Nat) (left : Expr)
    (curr : Nat), curr ≤ tokens.length → tokens.length < fuel + curr →
    InBounds tokens curr (parse_factor_loop fuel tokens left curr) := by
  intro fuel
  induction fuel with
  | zero => intro left curr h1 h2; omega
  | succ k ih =>
    intro left curr h1 h2
    unfold parse_factor_loop
    split
    · next e heq =>
      exact InBounds.error _ _ _ (fun h => tokenAt_ne_fuel _ _ (h ▸ heq))
    · next t heq =>
      have a0 := tokenAt_ok _ _ _ heq
      split_ifs with hm
      · have hu := parse_unary_advances tokens k (curr + 1) (by omega) (by omega)
        split
        · next e hr => exact InBounds.error _ _ _ (hu.error_ne _ _ _ _ hr)
        · next m c1 hr =>
          have := hu.1.2 _ _ hr
          exact InBounds.ok _ _ _ _ (by omega) (by omega)
        · next right c1 hnb hr =>
          have b1 := hu.1.2 _ _ hr
          have b2 := hu.2 _ _ hr (fun m hm => hnb m hm)
          exact InBounds.mono _ _ _ _ (ih _ c1 (by omega) (by omega)) (by omega)
      · exact InBounds.ok _ _ _ _ (Nat.le_refl _) h1

theorem parse_factor_advances (tokens : List SD_token) (fuel curr : Nat)
    (h1 : curr ≤ tokens.length) (h2 : tokens.length < fuel + curr) :
    Advances tokens curr (parse_factor fuel tokens curr) := by
  have hu := parse_unary_advances tokens fuel curr h1 h2
  unfold parse_factor
  split
  · next e hr =>
    exact ⟨InBounds.error _ _ _ (hu.error_ne _ _ _ _ hr), fun _ _ h => Except.noConfusion h⟩
  · next m c1 hr =>
    have := hu.1.2 _ _ hr
    refine ⟨InBounds.ok _ _ _ _ (by omega) (by omega), ?_⟩
    intro e1 c2 h hb
    injection h with h; injection h with e1 e2
    exact absurd e1.symm (hb _)
  · next left c1 hnb hr =>
    have b1 := hu.1.2 _ _ hr
    have b2 := hu.2 _ _ hr (fun m hm => hnb m hm)
    have hl := parse_factor_loop_inBounds tokens fuel left c1 (by omega) (by omega)
    refine ⟨InBounds.mono _ _ _ _ hl (by omega), ?_⟩
    intro e1 c2 h _
    have := hl.2 _ _ h
    omega

theorem parse_term_loop_inBounds (tokens : List SD_token) : ∀ (fuel : Nat) (left : Expr)
    (curr : Nat), curr ≤ tokens.length → tokens.length < fuel + curr →
    InBounds tokens curr (parse_term_loop fuel tokens left curr) := by
  intro fuel
  induction fuel with
  | zero => intro left curr h1 h2; omega
  | succ k ih =>
    intro left curr h1 h2
    unfold parse_term_loop
    split
    · next e heq =>
      exact InBounds.error _ _ _ (fun h => tokenAt_ne_fuel _ _ (h ▸ heq))
    · next t heq =>
      have a0 := tokenAt_ok _ _ _ heq
      split_ifs with hm
      · have hu := parse_factor_advances tokens k (curr + 1) (by omega) (by omega)
        dsimp only
        split
        · next e hr => exact InBounds.error _ _ _ (hu.error_ne _ _ _ _ hr)
        · next m c1 hr =>
          have := hu.1.2 _ _ hr
          exact InBounds.ok _ _ _ _ (by omega) (by omega)
        · next right c1 hnb hr =>
          have b1 := hu.1.2 _ _ hr
          have b2 := hu.2 _ _ hr (fun m hm => hnb m hm)
          exact InBounds.mono _ _ _ _ (ih _ c1 (by omega) (by omega)) (by omega)
      · exact InBounds.ok _ _ _ _ (Nat.le_refl _) h1

theorem parse_term_advances (tokens : List SD_token) (fuel curr : Nat)
    (h1 : curr ≤ tokens.length) (h2 : tokens.length < fuel + curr) :
    Advances tokens curr (parse_term fuel tokens curr) := by
  have hu := parse_factor_advances tokens fuel curr h1 h2
  unfold parse_term
  split
  · next e hr =>
    exact ⟨InBounds.error _ _ _ (hu.error_ne _ _ _ _ hr), fun _ _ h => Except.noConfusion h⟩
  · next m c1 hr =>
    have := hu.1.2 _ _ hr
    refine ⟨InBounds.ok _ _ _ _ (by omega) (by omega), ?_⟩
    intro e1 c2 h hb
    injection h with h; injection h with e1 e2
    exact absurd e1.symm (hb _)
  · next left c1 hnb hr =>
    have b1 := hu.1.2 _ _ hr
    have b2 := hu.2 _ _ hr (fun m hm => hnb m hm)
    have hl := parse_term_loop_inBounds tokens fuel left c1 (by omega) (by omega)
    refine ⟨InBounds.mono _ _ _ _ hl (by omega), ?_⟩
    intro e1 c2 h _
    have := hl.2 _ _ h
    omega

theorem parse_binary_ne_fuel (tokens : List SD_token) (fuel curr : Nat)
    (h1 : curr ≤ tokens.length) (h2 : tokens.length < fuel + curr) :
    parse_binary fuel tokens curr ≠ .error .outOfFuel := by
  have hu := parse_term_advances tokens fuel curr h1 h2
  unfold parse_binary
  split
  · next e hr =>
    intro h; injection h with h
    exact hu.error_ne _ _ _ _ hr h
  · next binary c1 hr =>
    split
    · next e heq =>
      intro h; injection h with h; subst h
      exact tokenAt_ne_fuel _ _ heq
    · split_ifs <;> simp

/-- The fuel handed to the parser by `SD_parse_to_ast` is never used up. -/
theorem SD_parse_to_ast_fuel (tokens : List SD_token) :
    SD_parse_to_ast tokens ≠ .error .outOfFuel := by
  have h := parse_binary_ne_fuel tokens (tokens.length + 1) 0 (Nat.zero_le _) (by omega)
  unfold SD_parse_to_ast
  split
  · next e hr =>
    intro h1; injection h1 with h1; subst h1
    exact h hr
  · simp

/-! ## Polynomial reading and Mathlib polynomials -/

/-- The two evaluation functions are evaluation of a polynomial over the
integers and of its formal derivative. -/
theorem Expr.eval_polynomial (e : Expr) (he : e.isPoly = true) :
    ∃ P : Polynomial ℤ, (∀ x, P.eval x = e.eval x) ∧
      (∀ x, (Polynomial.derivative P).eval x = e.evalDeriv x) := by
  induction e with
  | Atomic c p =>
    simp only [Expr.isPoly, decide_eq_true_eq] at he
    refine ⟨Polynomial.C c * Polynomial.X ^ p.toNat, ?_, ?_⟩
    · intro x; simp [Expr.eval]
    · intro x
      have hp : ((p.toNat : ℤ)) = p := Int.toNat_of_nonneg he
      simp [Expr.evalDeriv, Polynomial.derivative_X_pow, hp]
      ring
  | Binary op l r ihl ihr =>
    simp only [Expr.isPoly, Bool.and_eq_true, Bool.or_eq_true, decide_eq_true_eq] at he
    obtain ⟨⟨hop, hl⟩, hr⟩ := he
    obtain ⟨P, hP, hP'⟩ := ihl hl
    obtain ⟨Q, hQ, hQ'⟩ := ihr hr
    rcases hop with (h | h) | h
    · subst h
      exact ⟨P + Q, fun x => by simp [Expr.eval, hP, hQ],
        fun x => by simp [Expr.evalDeriv, hP', hQ']⟩
    · subst h
      refine ⟨P - Q, fun x => ?_, fun x => ?_⟩
      · simp only [Polynomial.eval_sub, hP, hQ]
        rw [Expr.eval, if_neg (by decide), if_pos rfl]
      · simp only [Polynomial.derivative_sub, Polynomial.eval_sub, hP', hQ']
        rw [Expr.evalDeriv, if_neg (by decide), if_pos rfl]
    · subst h
      refine ⟨P * Q, fun x => ?_, fun x => ?_⟩
      · simp only [Polynomial.eval_mul, hP, hQ]
        rw [Expr.eval, if_neg (by decide), if_neg (by decide), if_pos rfl]
      · simp only [Polynomial.derivative_mul, Polynomial.eval_add, Polynomial.eval_mul,
          hP, hQ, hP', hQ']
        rw [Expr.evalDeriv, if_neg (by decide), if_neg (by decide), if_pos rfl]
  | Botched m => simp [Expr.isPoly] at he
  | null => simp [Expr.isPoly] at he

/-! ## Arithmetic of `int` and `double` -/

theorem doubleOverflow_eq : doubleOverflow = 2 ^ 1024 - 2 ^ 970 := by
  norm_num [doubleOverflow]

theorem wrapInt_of_int (z : Int) (h1 : -2 ^ 31 ≤ z) (h2 : z < 2 ^ 31) : wrapInt z = z := by
  unfold wrapInt
  omega

theorem roundDouble_of_le (z : Int) (h : z.natAbs ≤ 2 ^ 53) : roundDouble z = z := by
  rcases Nat.lt_or_ge z.natAbs (2 ^ 53) with h1 | h1
  · unfold roundDouble
    simp only [h1, if_true]
  · have h2 : z.natAbs = 2 ^ 53 := le_antisymm h h1
    rcases Int.natAbs_eq z with h3 | h3
    · rw [h2] at h3
      rw [h3]
      decide
    · rw [h2] at h3
      rw [h3]
      decide

theorem new_power_eq (p : Int) (hp : 0 ≤ p) (hint : p < 2 ^ 31) :
    (if p = 0 then 0 else wrapInt (p - 1)) = max (p - 1) 0 := by
  split_ifs with h
  · subst h; simp
  · rw [wrapInt_of_int _ (by omega) (by omega), max_eq_left (by omega)]

/-! ## Claims -/

/-- C1 (differentiation bug): the line `x - x*x` lexes and parses to
`(1,1) - ((1,1) * (1,1))`, the polynomial `x - x^2`; `differentiate` leaves the terms
`(1,0)` and `((1,0)*(1,1)) - ((1,0)*(1,1))`, whose values sum to the constant `1` at
every `x`, while the formal derivative is `1 - 2x`. -/
theorem differentiate_difference_of_product_not_derivative :
    parseLine "x - x*x" '\x00'
      = some (.ok (.Binary '-' (.Atomic 1 1) (.Binary '*' (.Atomic 1 1) (.Atomic 1 1)))) ∧
    derivativeTerms (.Binary '-' (.Atomic 1 1) (.Binary '*' (.Atomic 1 1) (.Atomic 1 1)))
      = .ok [.Atomic 1 0,
          .Binary '-' (.Binary '*' (.Atomic 1 0) (.Atomic 1 1))
            (.Binary '*' (.Atomic 1 0) (.Atomic 1 1))] ∧
    (∀ x, termsEval x [.Atomic 1 0,
          .Binary '-' (.Binary '*' (.Atomic 1 0) (.Atomic 1 1))
            (.Binary '*' (.Atomic 1 0) (.Atomic 1 1))] = 1) ∧
    (∀ x, Expr.eval x (.Binary '-' (.Atomic 1 1) (.Binary '*' (.Atomic 1 1) (.Atomic 1 1)))
        = x - x ^ 2) ∧
    (∀ x, Expr.evalDeriv x (.Binary '-' (.Atomic 1 1) (.Binary '*' (.Atomic 1 1) (.Atomic 1 1)))
        = 1 - 2 * x) ∧
    termsEval 1 [.Atomic 1 0,
          .Binary '-' (.Binary '*' (.Atomic 1 0) (.Atomic 1 1))
            (.Binary '*' (.Atomic 1 0) (.Atomic 1 1))]
      ≠ Expr.evalDeriv 1 (.Binary '-' (.Atomic 1 1) (.Binary '*' (.Atomic 1 1) (.Atomic 1 1))) := by
  refine ⟨by decide, by decide, ?_, ?_, ?_, by decide⟩
  · intro x
    simp [termsEval, Expr.eval]
  · intro x
    simp [Expr.eval]
    ring
  · intro x
    simp [Expr.evalDeriv, Expr.eval]
    ring

/-- C2 (differentiation bug): the line `x*x*x` parses to the product node
`((1,1)*(1,1)) * (1,1)`, and `differentiate` on an empty sequence leaves three terms,
not two; the last one holds the left operand after it has given its children away. -/
theorem differentiate_nested_product_three_terms :
    parseLine "x*x*x" '\x00'
      = some (.ok (.Binary '*' (.Binary '*' (.Atomic 1 1) (.Atomic 1 1)) (.Atomic 1 1))) ∧
    derivativeTerms (.Binary '*' (.Binary '*' (.Atomic 1 1) (.Atomic 1 1)) (.Atomic 1 1))
      = .ok [.Binary '*' (.Atomic 1 0) (.Atomic 1 1),
          .Binary '*' (.Binary '*' (.Atomic 1 0) (.Atomic 1 1)) (.Atomic 1 1),
          .Binary '*' (.Atomic 1 0) (.Binary '*' .null .null)] := by
  exact ⟨by decide, by decide⟩

/-- C3 (differentiation bug): the line `x*x + x` parses to the sum node
`((1,1)*(1,1)) + (1,1)`, and `differentiate` on an empty sequence leaves two terms, not
one: the first product-rule term of the left operand stays in front of the sum node. -/
theorem differentiate_sum_of_product_two_terms :
    parseLine "x*x + x" '\x00'
      = some (.ok (.Binary '+' (.Binary '*' (.Atomic 1 1) (.Atomic 1 1)) (.Atomic 1 1))) ∧
    derivativeTerms (.Binary '+' (.Binary '*' (.Atomic 1 1) (.Atomic 1 1)) (.Atomic 1 1))
      = .ok [.Binary '*' (.Atomic 1 0) (.Atomic 1 1),
          .Binary '+' (.Binary '*' (.Atomic 1 0) (.Atomic 1 1)) (.Atomic 1 0)] := by
  exact ⟨by decide, by decide⟩

/-- C4 (differentiation bug): for the line `x*x*x` the third output term has a `Binary`
node with both children absent, `print_as_expr` on it dereferences an empty pointer,
and so does the printing of the result line. -/
theorem differentiate_nested_product_incomplete_term :
    parseLine "x*x*x" '\x00'
      = some (.ok (.Binary '*' (.Binary '*' (.Atomic 1 1) (.Atomic 1 1)) (.Atomic 1 1))) ∧
    (derivativeTerms (.Binary '*' (.Binary '*' (.Atomic 1 1) (.Atomic 1 1)) (.Atomic 1 1))).map
        (fun terms => terms.map Expr.complete)
      = .ok [true, true, false] ∧
    (derivativeTerms (.Binary '*' (.Binary '*' (.Atomic 1 1) (.Atomic 1 1)) (.Atomic 1 1))).map
        (fun terms => terms.map (fun t => print_as_expr t 'x'))
      = .ok [.ok "1 * x", .ok "1 * x * x", .error .nullDeref] ∧
    runLine "x*x*x" '\x00' = some (.error .nullDeref) := by
  exact ⟨by decide, by decide, by decide, by decide⟩

/-- C5 (counterexample): the line `94906267x^94906267` parses to
`Atomic (94906267, 94906267)`, whose exponent is not negative. `differentiate` appends one
term, but its coefficient is `9007199515875288`, the `double` nearest to the product,
and not the product `c*p`, which is `9007199515875289`. -/
theorem differentiate_Atomic_product_rounded :
    parseLine "94906267x^94906267" '\x00' = some (.ok (.Atomic 94906267 94906267)) ∧
    differentiate (.Atomic 94906267 94906267) []
      = .ok (.Atomic 94906267 94906267, [.Atomic 9007199515875288 94906266]) ∧
    (94906267 : Int) * 94906267 = 9007199515875289 ∧
    differentiate (.Atomic 94906267 94906267) []
      ≠ .ok (.Atomic 94906267 94906267,
          [.Atomic (94906267 * 94906267) (max (94906267 - 1) 0)]) := by
  exact ⟨by decide, by decide, by decide, by decide⟩

/-- C5 (amended): for every `Atomic (c, p)` with `p ≥ 0` an `int` and the product `c*p`
in the range of `double`, `differentiate` appends exactly one term, the `Atomic` of the
product rounded to the nearest `double` and of `max(p-1, 0)`. Where the product is at most
`2 ^ 53` in magnitude the term is `Atomic (c*p, max(p-1, 0))`: `(c*p, p-1)` when `p ≥ 1`;
it is `(0, 0)` when `p = 0`; the resulting exponent is never negative. -/
theorem differentiate_Atomic (c p : Int) (expr_vec : List Expr) (hp : 0 ≤ p)
    (hint : p < 2 ^ 31) (hrange : inDoubleRange (c * p) = true) :
    differentiate (.Atomic c p) expr_vec
      = .ok (.Atomic c p, expr_vec ++ [.Atomic (roundDouble (c * p)) (max (p - 1) 0)]) ∧
    ((c * p).natAbs ≤ 2 ^ 53 →
      differentiate (.Atomic c p) expr_vec
        = .ok (.Atomic c p, expr_vec ++ [.Atomic (c * p) (max (p - 1) 0)]) ∧
      (1 ≤ p → differentiate (.Atomic c p) expr_vec
        = .ok (.Atomic c p, expr_vec ++ [.Atomic (c * p) (p - 1)]))) ∧
    (p = 0 → differentiate (.Atomic c p) expr_vec
      = .ok (.Atomic c p, expr_vec ++ [.Atomic 0 0])) ∧
    0 ≤ max (p - 1) 0 := by
  have key := new_power_eq p hp hint
  have hd : differentiate (.Atomic c p) expr_vec
      = .ok (.Atomic c p, expr_vec ++ [.Atomic (roundDouble (c * p)) (max (p - 1) 0)]) := by
    simp only [differentiate, hrange, if_true, key]
  refine ⟨hd, ?_, ?_, le_max_right _ _⟩
  · intro hex
    rw [hd, roundDouble_of_le _ hex]
    refine ⟨rfl, fun h1 => ?_⟩
    rw [max_eq_left (by omega)]
  · intro h0
    subst h0
    rw [hd]
    simp [roundDouble]

theorem differentiate_Atomic_witness :
    differentiate (.Atomic 3 2) [] = .ok (.Atomic 3 2, [] ++ [.Atomic (3 * 2) (2 - 1)]) :=
  ((differentiate_Atomic 3 2 [] (by decide) (by decide) (by decide)).2.1 (by decide)).2
    (by decide)

/-- C6 (lexer bug): on the line `1x1x1` with no variable bound `SD_scan` does not
return: the substring constructor for the third NUMBER literal is called with position 6
in a string of size 5 and throws `std::out_of_range`. -/
theorem SD_scan_out_of_range :
    SD_scan "1x1x1".data [] '\x00' = .outOfRange ∧
    substring "1x1x1".data 6 (5 - 6) = none := by
  exact ⟨by decide, by decide⟩

/-- C7 (lexer bug): on the line ` 3x2` `SD_scan` succeeds, and the digit run `2`
gives a NUMBER token whose literal is the empty string. -/
theorem SD_scan_number_literal_empty :
    SD_scan " 3x2".data [] '\x00'
      = .success " 3x2".data
          [⟨.SD_NUMBER, "3"⟩, ⟨.SD_VARIABLE, "120"⟩, ⟨.SD_NUMBER, ""⟩, ⟨.SD_ENDEXPR, "$"⟩]
          'x' := by
  decide

/-- C8 (lexer bug): on the line `x` the VARIABLE token's literal is `120`, the decimal
character code that `std::to_string` gives for `'x'`, not the one-character string `x`. -/
theorem SD_scan_variable_literal_is_code :
    SD_scan "x".data [] '\x00'
      = .success "x".data [⟨.SD_VARIABLE, "120"⟩, ⟨.SD_ENDEXPR, "$"⟩] 'x' ∧
    ("120" : String) ≠ "x" := by
  exact ⟨by decide, by decide⟩

/-- C9: with a variable `v` already bound on entry to `SD_scan`, when the scan reaches
a letter whose lowercase form differs from `v`, `SD_scan` fails with the re-bind error
naming `v` and that lowercased letter, and `var` is still `v`; when it reaches a letter
whose lowercase form is `v`, the scan goes on to the next character. Moreover `var` is
still `v` whenever `SD_scan` returns, and a re-bind failure always names `v` and the
lowercase form, different from `v`, of a letter of the input. -/
theorem SD_scan_rebind_keeps_bound_variable (v : Char) (hv : v ≠ '\x00')
    (input0 : List Char) (output0 : List SD_token) :
    (∀ (fuel i : Nat) (start : Int) (input : List Char) (output : List SD_token) (var : Char),
      ScanReaches input0 output0 v fuel i start input output var →
      i < input0.length → is_letter (charAt input0 i) = true →
      ((charAt input0 i).toLower ≠ v →
        SD_scan input0 output0 v
          = .rebind v (charAt input0 i).toLower (input.set i (charAt input0 i).toLower)
              output v) ∧
      ((charAt input0 i).toLower = v →
        ∃ fuel1, fuel = fuel1 + 1 ∧
          ScanReaches input0 output0 v fuel1 (i + 1) (start + 1) (input.set i v)
            (output ++ [⟨.SD_VARIABLE, toString v.toNat⟩]) v)) ∧
    (∀ w, (SD_scan input0 output0 v).boundVar = some w → w = v) ∧
    (∀ a b inp out w, SD_scan input0 output0 v = .rebind a b inp out w →
      a = v ∧ w = v ∧ b ≠ v ∧ ∃ c ∈ input0, is_letter c = true ∧ c.toLower = b) := by
  refine ⟨?_, scanLoop_boundVar _ _ _ _ _ _ hv, ?_⟩
  · intro fuel i start input output var hr hi hl
    obtain ⟨h1, h2, h3, h4, h5⟩ := hr.invariant
    have hvar := h4 hv
    subst hvar
    have hc : charAt input i = charAt input0 i := h5 i (Nat.le_refl i)
    have hi1 : i < input.length := by omega
    obtain ⟨fuel1, hf⟩ : ∃ fuel1, fuel = fuel1 + 1 := ⟨fuel - 1, by omega⟩
    subst hf
    rw [← hc] at hl ⊢
    refine ⟨fun hne => ?_, fun heq => ?_⟩
    · rw [h1, scanLoop, if_pos hi1, scanBody_letter _ _ _ _ _ hl, if_neg hv,
        if_pos (fun h => hne h.symm)]
    · refine ⟨fuel1, rfl, ScanReaches.step hr hi1 ?_⟩
      rw [scanBody_letter _ _ _ _ _ hl, if_neg hv, if_neg (fun h => h heq.symm), heq]
  · intro a b inp out w h
    obtain ⟨h1, h2, k, -, hk, hl, hb⟩ := scanLoop_rebind _ _ _ _ _ _ _ _ _ _ _ hv h
    have hw : w = v := scanLoop_boundVar _ _ _ _ _ _ hv w (by
      show (SD_scan input0 output0 v).boundVar = some w
      rw [h]; rfl)
    refine ⟨h1, hw, h2, charAt input0 k, ?_, hl, hb⟩
    have hc : charAt input0 k = input0[k] := by
      simp [charAt, List.getD, List.getElem?_eq_getElem hk]
    rw [hc]
    exact List.getElem_mem hk

theorem SD_scan_rebind_keeps_bound_variable_witness :
    ('x' ≠ '\x00') ∧
    ScanReaches "x+Y".data [] 'x' 1 2 2 "x+Y".data [⟨.SD_VARIABLE, "120"⟩, ⟨.SD_PLUS, "+"⟩] 'x' ∧
    SD_scan "x+Y".data [] 'x'
      = .rebind 'x' 'y' "x+y".data [⟨.SD_VARIABLE, "120"⟩, ⟨.SD_PLUS, "+"⟩] 'x' :=
  have h0 : ScanReaches "x+Y".data [] 'x' (2 + 1) 0 0 "x+Y".data [] 'x' := ScanReaches.entry
  have h1 : ScanReaches "x+Y".data [] 'x' (1 + 1) 1 1 "x+Y".data [⟨.SD_VARIABLE, "120"⟩] 'x' :=
    ScanReaches.step h0 (by decide) (by decide)
  have h2 : ScanReaches "x+Y".data [] 'x' 1 2 2 "x+Y".data
      [⟨.SD_VARIABLE, "120"⟩, ⟨.SD_PLUS, "+"⟩] 'x' :=
    ScanReaches.step h1 (by decide) (by decide)
  ⟨by decide, h2,
    ((SD_scan_rebind_keeps_bound_variable 'x' (by decide) "x+Y".data []).1 1 2 2 "x+Y".data
      [⟨.SD_VARIABLE, "120"⟩, ⟨.SD_PLUS, "+"⟩] 'x' h2 (by decide) (by decide)).1 (by decide)⟩

/-- C10: whenever `SD_scan` succeeds on an initially empty output vector, the token
sequence is non-empty, its last token is END, no earlier token is END, and so exactly
one token is END. -/
theorem SD_scan_success_one_END (input : List Char) (var : Char) (inp : List Char)
    (toks : List SD_token) (v : Char) (h : SD_scan input [] var = .success inp toks v) :
    toks ≠ [] ∧ toks.getLast? = some ⟨.SD_ENDEXPR, "$"⟩ ∧
    (∀ t ∈ toks.dropLast, t.ttype ≠ .SD_ENDEXPR) ∧
    toks.countP (fun t => decide (t.ttype = .SD_ENDEXPR)) = 1 := by
  obtain ⟨ts, hts, hall⟩ := scanLoop_success_tokens _ _ _ _ _ _ _ _ _ h
  rw [List.nil_append] at hts
  subst hts
  refine ⟨by simp, by simp, ?_, ?_⟩
  · rw [List.dropLast_concat]
    exact hall
  · rw [List.countP_append]
    have h0 : List.countP (fun t => decide (t.ttype = SD_tokenType.SD_ENDEXPR)) ts = 0 := by
      rw [List.countP_eq_zero]
      intro t ht
      simpa using hall t ht
    rw [h0]
    decide

theorem SD_scan_success_one_END_witness :
    SD_scan "2x".data [] '\x00'
      = .success "2x".data [⟨.SD_NUMBER, "2"⟩, ⟨.SD_VARIABLE, "120"⟩, ⟨.SD_ENDEXPR, "$"⟩] 'x' ∧
    ([⟨.SD_NUMBER, "2"⟩, ⟨.SD_VARIABLE, "120"⟩, ⟨.SD_ENDEXPR, "$"⟩] : List SD_token).getLast?
      = some ⟨.SD_ENDEXPR, "$"⟩ :=
  ⟨by decide, (SD_scan_success_one_END "2x".data '\x00' "2x".data
    [⟨.SD_NUMBER, "2"⟩, ⟨.SD_VARIABLE, "120"⟩, ⟨.SD_ENDEXPR, "$"⟩] 'x' (by decide)).2.1⟩

/-- C16: end to end on the line `3x^2 + 2x` with no variable bound, `SD_scan` succeeds and
binds `x`, `SD_parse_to_ast` returns `Binary('+', Atomic(3,2), Atomic(2,1))`,
`differentiate` leaves the single term `Binary('+', Atomic(6,1), Atomic(2,0))`, and the
line written is `6x + 2`. -/
theorem end_to_end_3x2_plus_2x :
    SD_scan "3x^2 + 2x".data [] '\x00'
      = .success "3x^2 + 2x".data
          [⟨.SD_NUMBER, "3"⟩, ⟨.SD_VARIABLE, "120"⟩, ⟨.SD_CARET, "^"⟩, ⟨.SD_NUMBER, "2"⟩,
           ⟨.SD_PLUS, "+"⟩, ⟨.SD_NUMBER, "2"⟩, ⟨.SD_VARIABLE, "120"⟩, ⟨.SD_ENDEXPR, "$"⟩] 'x' ∧
    SD_parse_to_ast
        [⟨.SD_NUMBER, "3"⟩, ⟨.SD_VARIABLE, "120"⟩, ⟨.SD_CARET, "^"⟩, ⟨.SD_NUMBER, "2"⟩,
         ⟨.SD_PLUS, "+"⟩, ⟨.SD_NUMBER, "2"⟩, ⟨.SD_VARIABLE, "120"⟩, ⟨.SD_ENDEXPR, "$"⟩]
      = .ok (.Binary '+' (.Atomic 3 2) (.Atomic 2 1)) ∧
    derivativeTerms (.Binary '+' (.Atomic 3 2) (.Atomic 2 1))
      = .ok [.Binary '+' (.Atomic 6 1) (.Atomic 2 0)] ∧
    SD_differentiate_and_print (.Binary '+' (.Atomic 3 2) (.Atomic 2 1)) 'x'
      = .ok "6x + 2\n" ∧
    mainPass "3x^2 + 2x".data '\x00' = .again "6x + 2\n" 'x' := by
  exact ⟨by decide, by decide, by decide, by decide, by decide⟩

/-- C15 (printer bug): `print_as_expr` writes the coefficient only when it is at least 1
(power 0) or greater than 1 (power at least 1). The atomic `(-6, 1)`, the derivative of
`-3x^2`, is written as `x` without its coefficient `-6`, and the atomics `(-3, 0)` and
`(0, 0)` are written as nothing although their power is 0. -/
theorem print_as_expr_omits_nonpositive_coefficient :
    print_as_expr (.Atomic (-6) 1) 'x' = .ok "x" ∧
    showConstant (-6) = "-6" ∧
    print_as_expr (.Atomic (-3) 0) 'x' = .ok "" ∧
    print_as_expr (.Atomic 0 0) 'x' = .ok "" ∧
    parseLine "-3x^2" '\x00' = some (.ok (.Atomic (-3) 2)) ∧
    derivativeTerms (.Atomic (-3) 2) = .ok [.Atomic (-6) 1] ∧
    mainPass "-3x^2".data '\x00' = .again "x\n" 'x' := by
  exact ⟨by decide, by decide, by decide, by decide, by decide, by decide, by decide⟩

/-- C11 (parser bug): on the tokens of `2 + *` the atomic rule fails at `*` with its
number/variable diagnostic, but `parse_binary` replaces the failure, because `*` is not
END, and `SD_parse_to_ast` returns the end-of-expression diagnostic; the same happens to
the exponent diagnostic on the tokens of `x^+`. Only when the offending token is END, as
for `2 +`, does the atomic rule's diagnostic come back. -/
theorem SD_parse_to_ast_replaces_atomic_diagnostic :
    parse_atomic false
        [⟨.SD_NUMBER, "2"⟩, ⟨.SD_PLUS, "+"⟩, ⟨.SD_MULTIPLY, "*"⟩, ⟨.SD_ENDEXPR, "$"⟩] 2
      = .ok (.Botched "Error: Unexpected symbol '*'. Expected a number/variable instead", 2) ∧
    SD_parse_to_ast
        [⟨.SD_NUMBER, "2"⟩, ⟨.SD_PLUS, "+"⟩, ⟨.SD_MULTIPLY, "*"⟩, ⟨.SD_ENDEXPR, "$"⟩]
      = .ok (.Botched
          "Error: Unexpected symbol '*'. Expected the implicit end-of-expression token") ∧
    parse_atomic false
        [⟨.SD_VARIABLE, "120"⟩, ⟨.SD_CARET, "^"⟩, ⟨.SD_PLUS, "+"⟩, ⟨.SD_ENDEXPR, "$"⟩] 0
      = .ok (.Botched
          "Error: Unexpected symbol '+' following '^'. Expected a number as exponent", 2) ∧
    SD_parse_to_ast
        [⟨.SD_VARIABLE, "120"⟩, ⟨.SD_CARET, "^"⟩, ⟨.SD_PLUS, "+"⟩, ⟨.SD_ENDEXPR, "$"⟩]
      = .ok (.Botched
          "Error: Unexpected symbol '+'. Expected the implicit end-of-expression token") ∧
    SD_parse_to_ast [⟨.SD_NUMBER, "2"⟩, ⟨.SD_PLUS, "+"⟩, ⟨.SD_ENDEXPR, "$"⟩]
      = .ok (.Botched "Error: Unexpected symbol '$'. Expected a number/variable instead") ∧
    mainPass "2 + *".data '\x00'
      = .again "Error: Unexpected symbol '*'. Expected the implicit end-of-expression token\n"
          '\x00' := by
  exact ⟨by decide, by decide, by decide, by decide, by decide, by decide⟩

/-- C12: when the term rule returns a tree and stops at a token `t`, `SD_parse_to_ast`
returns that tree unchanged if `t` is END, and otherwise a failure node whose message is
`Error: Unexpected symbol '<literal of t>'. Expected the implicit end-of-expression
token`. -/
theorem SD_parse_to_ast_after_term (tokens : List SD_token) (tree : Expr) (curr1 : Nat)
    (t : SD_token) (hterm : parse_term (tokens.length + 1) tokens 0 = .ok (tree, curr1))
    (ht : tokenAt tokens curr1 = .ok t) :
    (t.ttype = .SD_ENDEXPR → SD_parse_to_ast tokens = .ok tree) ∧
    (t.ttype ≠ .SD_ENDEXPR →
      SD_parse_to_ast tokens
        = .ok (.Botched ("Error: Unexpected symbol '" ++ t.literal
            ++ "'. Expected the implicit end-of-expression token"))) := by
  constructor
  · intro h
    simp only [SD_parse_to_ast, parse_binary, hterm, ht, h, ne_eq, not_true_eq_false,
      if_false]
  · intro h
    simp only [SD_parse_to_ast, parse_binary, hterm, ht, ne_eq, h, not_false_eq_true,
      if_true, msgExpectedEnd]

theorem SD_parse_to_ast_after_term_witness :
    SD_parse_to_ast [⟨.SD_NUMBER, "2"⟩, ⟨.SD_NUMBER, "3"⟩, ⟨.SD_ENDEXPR, "$"⟩]
      = .ok (.Botched ("Error: Unexpected symbol '" ++ "3"
          ++ "'. Expected the implicit end-of-expression token")) :=
  (SD_parse_to_ast_after_term [⟨.SD_NUMBER, "2"⟩, ⟨.SD_NUMBER, "3"⟩, ⟨.SD_ENDEXPR, "$"⟩]
    (.Atomic 2 0) 1 ⟨.SD_NUMBER, "3"⟩ (by decide) (by decide)).2 (by decide)

/-! ## Letters, unknown symbols and the bound variable across lines -/

theorem toLower_ne_nul (L : Char) (hL : is_letter L = true) : L.toLower ≠ '\x00' := by
  unfold Char.toLower
  dsimp only
  split_ifs with h
  · obtain ⟨n, hn⟩ : ∃ n, L.toNat = n := ⟨_, rfl⟩
    rw [hn] at h ⊢
    obtain ⟨h1, h2⟩ := h
    interval_cases n <;> decide
  · intro h0
    rw [h0] at hL
    exact absurd hL (by decide)

theorem scanBody_unknown (i : Nat) (start : Int) (input : List Char) (output : List SD_token)
    (var : Char) (h1 : charAt input i ≠ ' ') (h2 : charAt input i ≠ '+')
    (h3 : charAt input i ≠ '-') (h4 : charAt input i ≠ '*') (h5 : charAt input i ≠ '^')
    (h6 : is_digit (charAt input i) = false) (h7 : is_letter (charAt input i) = false) :
    scanBody i start input output var
      = .done (.unknownSymbol (charAt input i) input output var) := by
  dsimp only [scanBody]
  rw [if_neg h1, if_neg h2, if_neg h3, if_neg h4, if_neg h5, if_neg (by simp [h6]),
    if_neg (by simp [h7])]

/-- With `v` bound, a scan that reaches a letter whose lowercase form differs from `v` is
the re-bind failure naming `v` and that letter. -/
theorem SD_scan_reaches_other_letter (v : Char) (hv : v ≠ '\x00') (input0 : List Char)
    (output0 : List SD_token) (fuel i : Nat) (start : Int) (input : List Char)
    (output : List SD_token) (var : Char)
    (hr : ScanReaches input0 output0 v fuel i start input output var)
    (hi : i < input0.length) (hl : is_letter (charAt input0 i) = true)
    (hne : (charAt input0 i).toLower ≠ v) :
    SD_scan input0 output0 v
      = .rebind v (charAt input0 i).toLower (input.set i (charAt input0 i).toLower)
          output v := by
  obtain ⟨h1, h2, h3, h4, h5⟩ := hr.invariant
  have hvar := h4 hv
  subst hvar
  have hc : charAt input i = charAt input0 i := h5 i (Nat.le_refl i)
  have hi1 : i < input.length := by omega
  obtain ⟨fuel1, hf⟩ : ∃ fuel1, fuel = fuel1 + 1 := ⟨fuel - 1, by omega⟩
  subst hf
  rw [← hc] at hl hne ⊢
  rw [h1, scanLoop, if_pos hi1, scanBody_letter _ _ _ _ _ hl, if_neg hv,
    if_pos (fun h => hne h.symm)]

/-- C20: on a line made of a letter `L` followed by a character that is not a space, an
operator, a digit or a letter, `SD_scan` started with no variable bound fails with the
unknown-symbol error and leaves `var` set to the lowercase of `L`; `main` keeps that
value, so a later line (not an exit command) on which the scan reaches a letter with a
different lowercase form, its first character for one, fails with the re-bind error. -/
theorem SD_scan_failure_still_binds (L c : Char) (hL : is_letter L = true)
    (h1 : c ≠ ' ') (h2 : c ≠ '+') (h3 : c ≠ '-') (h4 : c ≠ '*') (h5 : c ≠ '^')
    (h6 : is_digit c = false) (h7 : is_letter c = false) :
    SD_scan [L, c] [] '\x00'
      = .unknownSymbol c [L.toLower, c] [⟨.SD_VARIABLE, toString L.toLower.toNat⟩]
          L.toLower ∧
    mainPass [L, c] '\x00' = .again (msgUnknownSymbol c) L.toLower ∧
    (∀ (later : List Char) (fuel i : Nat) (start : Int) (input : List Char)
        (output : List SD_token) (var : Char),
      isExitCommand later = false →
      ScanReaches later [] L.toLower fuel i start input output var →
      i < later.length → is_letter (charAt later i) = true →
      (charAt later i).toLower ≠ L.toLower →
      mainPass later L.toLower
        = .again (msgRebind L.toLower (charAt later i).toLower) L.toLower) ∧
    (∀ (M : Char) (rest : List Char), isExitCommand (M :: rest) = false →
      is_letter M = true → M.toLower ≠ L.toLower →
      mainPass (M :: rest) L.toLower = .again (msgRebind L.toLower M.toLower) L.toLower) := by
  have hv : L.toLower ≠ '\x00' := toLower_ne_nul L hL
  have hscan : SD_scan [L, c] [] '\x00'
      = .unknownSymbol c [L.toLower, c] [⟨.SD_VARIABLE, toString L.toLower.toNat⟩]
          L.toLower := by
    show scanLoop 2 0 0 [L, c] [] '\x00' = _
    rw [scanLoop, if_pos (by simp), scanBody_letter 0 0 [L, c] [] '\x00' hL, if_pos rfl]
    show scanLoop 1 1 (0 + 1) [L.toLower, c] _ L.toLower = _
    rw [scanLoop, if_pos (by simp),
      scanBody_unknown 1 (0 + 1) [L.toLower, c] _ L.toLower h1 h2 h3 h4 h5 h6 h7]
    rfl
  have hnoexit : isExitCommand [L, c] = false := by
    have e1 : [L, c] ≠ "q".data := by simp [String.data]
    have e2 : [L, c] ≠ "quit".data := by simp [String.data]
    have e3 : [L, c] ≠ "exit".data := by simp [String.data]
    simp [isExitCommand, e1, e2, e3]
  have hlater : ∀ (later : List Char) (fuel i : Nat) (start : Int) (input : List Char)
      (output : List SD_token) (var : Char),
      isExitCommand later = false →
      ScanReaches later [] L.toLower fuel i start input output var →
      i < later.length → is_letter (charAt later i) = true →
      (charAt later i).toLower ≠ L.toLower →
      mainPass later L.toLower
        = .again (msgRebind L.toLower (charAt later i).toLower) L.toLower := by
    intro later fuel i start input output var hex hr hi hl hne
    have hne0 : later ≠ [] := by
      intro h0; rw [h0] at hi; exact absurd hi (by simp)
    unfold mainPass mainIteration
    rw [hex, SD_scan_reaches_other_letter _ hv later [] fuel i start input output var hr hi hl
      hne]
    simp [hne0]
  refine ⟨hscan, ?_, hlater, ?_⟩
  · unfold mainPass mainIteration
    rw [hnoexit, hscan]
    simp
  · intro M rest hex hM hne
    exact hlater (M :: rest) _ 0 0 _ _ _ hex ScanReaches.entry (by simp) hM hne

theorem SD_scan_failure_still_binds_witness :
    SD_scan "Y&".data [] '\x00'
      = .unknownSymbol '&' "y&".data [⟨.SD_VARIABLE, "121"⟩] 'y' ∧
    mainPass "x".data 'y'
      = .again "Error: Attempt to re-bind differentiating variable 'y' with 'x'\n" 'y' :=
  ⟨(SD_scan_failure_still_binds 'Y' '&' (by decide) (by decide) (by decide) (by decide)
      (by decide) (by decide) (by decide) (by decide)).1,
   (SD_scan_failure_still_binds 'Y' '&' (by decide) (by decide) (by decide) (by decide)
      (by decide) (by decide) (by decide) (by decide)).2.2.2 'x' [] (by decide) (by decide)
      (by decide)⟩

/-! ## Differentiation of trees without a product node -/

theorem popBack_concat (expr_vec : List Expr) (e : Expr) :
    popBack (expr_vec ++ [e]) = .ok (e, expr_vec) := by
  simp [popBack]

theorem Expr.isSumTree_isPoly (e : Expr) (he : e.isSumTree = true) : e.isPoly = true := by
  induction e with
  | Atomic c p =>
    simp only [Expr.isSumTree, Bool.and_eq_true, decide_eq_true_eq] at he
    simpa [Expr.isPoly] using he.1.1
  | Binary op l r ihl ihr =>
    simp only [Expr.isSumTree, Bool.and_eq_true, Bool.or_eq_true, decide_eq_true_eq] at he
    obtain ⟨⟨hop, hl⟩, hr⟩ := he
    simp only [Expr.isPoly, Bool.and_eq_true, Bool.or_eq_true, decide_eq_true_eq]
    exact ⟨⟨Or.inl hop, ihl hl⟩, ihr hr⟩
  | Botched m => simp [Expr.isSumTree] at he
  | null => simp [Expr.isSumTree] at he

theorem differentiate_isSumTree (e : Expr) (he : e.isSumTree = true) :
    ∀ expr_vec,
      differentiate e expr_vec = .ok (e, expr_vec ++ [e.atomwiseDerivativeRounded]) := by
  induction e with
  | Atomic c p =>
    intro expr_vec
    simp only [Expr.isSumTree, Bool.and_eq_true, decide_eq_true_eq] at he
    obtain ⟨⟨hp, hint⟩, hr⟩ := he
    simp only [differentiate, hr, if_true, new_power_eq p hp hint,
      Expr.atomwiseDerivativeRounded]
  | Binary op l r ihl ihr =>
    intro expr_vec
    simp only [Expr.isSumTree, Bool.and_eq_true, Bool.or_eq_true, decide_eq_true_eq] at he
    obtain ⟨⟨hop, hl⟩, hr⟩ := he
    have hstar : ¬ op = '*' := by
      rcases hop with h | h <;> (rw [h]; decide)
    simp only [differentiate, if_neg hstar, if_pos hop, ihl hl, ihr hr, popBack_concat,
      Expr.atomwiseDerivativeRounded]
  | Botched m => simp [Expr.isSumTree] at he
  | null => simp [Expr.isSumTree] at he

theorem Expr.atomwiseDerivativeRounded_exact (e : Expr) (he : e.exactProducts = true) :
    e.atomwiseDerivativeRounded = e.atomwiseDerivative := by
  induction e with
  | Atomic c p =>
    simp only [Expr.exactProducts, decide_eq_true_eq] at he
    simp only [Expr.atomwiseDerivativeRounded, Expr.atomwiseDerivative, roundDouble_of_le _ he]
  | Binary op l r ihl ihr =>
    simp only [Expr.exactProducts, Bool.and_eq_true] at he
    simp only [Expr.atomwiseDerivativeRounded, Expr.atomwiseDerivative, ihl he.1, ihr he.2]
  | Botched m => rfl
  | null => rfl

theorem Expr.atomwiseDerivative_eval (e : Expr) (he : e.isSumTree = true) (x : Int) :
    e.atomwiseDerivative.eval x = e.evalDeriv x := by
  induction e with
  | Atomic c p =>
    simp only [Expr.isSumTree, Bool.and_eq_true, decide_eq_true_eq] at he
    obtain ⟨⟨hp, -⟩, -⟩ := he
    have hexp : (max (p - 1) 0).toNat = p.toNat - 1 := by omega
    simp only [Expr.atomwiseDerivative, Expr.eval, Expr.evalDeriv, hexp]
  | Binary op l r ihl ihr =>
    simp only [Expr.isSumTree, Bool.and_eq_true, Bool.or_eq_true, decide_eq_true_eq] at he
    obtain ⟨⟨hop, hl⟩, hr⟩ := he
    simp only [Expr.atomwiseDerivative, Expr.eval, Expr.evalDeriv, ihl hl, ihr hr]
    rcases hop with h | h
    · rw [if_pos h, if_pos h]
    · have hne : ¬ op = '+' := by rw [h]; decide
      rw [if_neg hne, if_pos h, if_neg hne, if_pos h]
  | Botched m => simp [Expr.isSumTree] at he
  | null => simp [Expr.isSumTree] at he

/-- C19 (counterexample): the line `94906267x^94906267+x` parses to a tree of two `Atomic`
nodes under `+`. `differentiate` yields one term of the same shape, but the coefficient
of its first `Atomic` is `9007199515875288`, the `double` nearest to the product, and not
the product `c*p`, which is `9007199515875289`; at `x = 1` the value of the term is
`9007199515875289` and that of the formal derivative `9007199515875290`. -/
theorem differentiate_sum_tree_product_rounded :
    parseLine "94906267x^94906267+x" '\x00'
      = some (.ok (.Binary '+' (.Atomic 94906267 94906267) (.Atomic 1 1))) ∧
    (Expr.Binary '+' (.Atomic 94906267 94906267) (.Atomic 1 1)).isSumTree = true ∧
    derivativeTerms (.Binary '+' (.Atomic 94906267 94906267) (.Atomic 1 1))
      = .ok [.Binary '+' (.Atomic 9007199515875288 94906266) (.Atomic 1 0)] ∧
    (Expr.Binary '+' (.Atomic 94906267 94906267) (.Atomic 1 1)).atomwiseDerivative
      = .Binary '+' (.Atomic 9007199515875289 94906266) (.Atomic 1 0) ∧
    (Expr.Binary '+' (.Atomic 9007199515875288 94906266) (.Atomic 1 0)).eval 1
      = 9007199515875289 ∧
    (Expr.Binary '+' (.Atomic 94906267 94906267) (.Atomic 1 1)).evalDeriv 1
      = 9007199515875290 := by
  refine ⟨by decide, by decide, by decide, by decide, ?_, ?_⟩
  · simp [Expr.eval]
  · simp [Expr.evalDeriv]

/-- C19 (amended): for every tree built only from `Atomic` nodes (exponent an `int` at
least 0, product of coefficient and exponent in the range of `double`) and `Binary` nodes
with operator `+` or `-`, `differentiate` called on an empty sequence leaves the tree as
it was and yields exactly one term: the tree of the same shape and operators with each
`Atomic (c, p)` replaced by `(c*p rounded to the nearest double, max(p-1, 0))`. Where
every product `c*p` is at most `2 ^ 53` in magnitude, each `Atomic` of the term is
`(c*p, max(p-1, 0))` and the value of the term is the formal derivative of the value of
the input: they are the values of a polynomial over the integers and of its derivative. -/
theorem differentiate_sum_tree (e : Expr) (he : e.isSumTree = true) :
    differentiate e [] = .ok (e, [e.atomwiseDerivativeRounded]) ∧
    derivativeTerms e = .ok [e.atomwiseDerivativeRounded] ∧
    (e.exactProducts = true →
      derivativeTerms e = .ok [e.atomwiseDerivative] ∧
      (∀ x, e.atomwiseDerivative.eval x = e.evalDeriv x) ∧
      ∃ P : Polynomial ℤ, (∀ x, P.eval x = e.eval x) ∧
        (∀ x, (Polynomial.derivative P).eval x = e.atomwiseDerivative.eval x)) := by
  have h1 : differentiate e [] = .ok (e, [e.atomwiseDerivativeRounded]) := by
    simpa using differentiate_isSumTree e he []
  have h2 : derivativeTerms e = .ok [e.atomwiseDerivativeRounded] := by
    simp only [derivativeTerms, h1]
  refine ⟨h1, h2, fun hex => ⟨?_, Expr.atomwiseDerivative_eval e he, ?_⟩⟩
  · rw [h2, Expr.atomwiseDerivativeRounded_exact e hex]
  · obtain ⟨P, hP, hP'⟩ := Expr.eval_polynomial e (Expr.isSumTree_isPoly e he)
    exact ⟨P, hP, fun x => by rw [hP' x, Expr.atomwiseDerivative_eval e he x]⟩

theorem differentiate_sum_tree_witness :
    derivativeTerms (.Binary '-' (.Binary '+' (.Atomic 3 2) (.Atomic 2 1)) (.Atomic 7 0))
      = .ok [(Expr.Binary '-' (.Binary '+' (.Atomic 3 2) (.Atomic 2 1))
          (.Atomic 7 0)).atomwiseDerivative] :=
  ((differentiate_sum_tree
    (.Binary '-' (.Binary '+' (.Atomic 3 2) (.Atomic 2 1)) (.Atomic 7 0)) (by decide)).2.2
    (by decide)).1

/-! ## The unary rule -/

theorem parse_atomic_rest_negate (tokens : List SD_token) (b : Bool) (constant power : Int)
    (curr : Nat) (e : Expr) (next : Nat)
    (h : parse_atomic_rest false tokens b constant power curr = .ok (e, next)) :
    parse_atomic_rest true tokens b constant power curr = .ok (e.negated, next) := by
  unfold parse_atomic_rest at h ⊢
  repeat' split at h
  all_goals first
    | exact Except.noConfusion h
    | (injection h with h; injection h with e1 e2; subst e1 e2
       simp_all [mkAtomic, Expr.negated])

theorem parse_atomic_negate (tokens : List SD_token) (curr : Nat) (e : Expr) (next : Nat)
    (h : parse_atomic false tokens curr = .ok (e, next)) :
    parse_atomic true tokens curr = .ok (e.negated, next) := by
  unfold parse_atomic at h ⊢
  split at h
  · exact Except.noConfusion h
  · next t0 heq =>
    split_ifs at h ⊢ with hn hv
    · split at h
      · exact Except.noConfusion h
      · exact parse_atomic_rest_negate _ _ _ _ _ _ _ h
    · exact parse_atomic_rest_negate _ _ _ _ _ _ _ h
    · injection h with h; injection h with e1 e2; subst e1 e2
      rfl

/-- Where the atomic rule returns an `Atomic`, the token it starts at is a NUMBER or a
VARIABLE. -/
theorem parse_atomic_first_token (negate : Bool) (tokens : List SD_token) (curr : Nat)
    (c p : Int) (next : Nat)
    (h : parse_atomic negate tokens curr = .ok (.Atomic c p, next)) :
    ∃ t, tokenAt tokens curr = .ok t ∧
      (t.ttype = .SD_NUMBER ∨ t.ttype = .SD_VARIABLE) := by
  unfold parse_atomic at h
  split at h
  · exact Except.noConfusion h
  · next t0 heq =>
    refine ⟨t0, heq, ?_⟩
    split_ifs at h with hn hv
    · exact Or.inl hn
    · exact Or.inr hv
    · injection h with h; injection h with e1 e2
      exact Expr.noConfusion e1

theorem parse_unary_loop_minus_run (tokens : List SD_token) (c p : Int) (next : Nat) :
    ∀ (n fuel negation_count curr : Nat),
    (∀ j, j < n → ∃ t, tokenAt tokens (curr + j) = .ok t ∧ t.ttype = .SD_MINUS) →
    parse_atomic false tokens (curr + n) = .ok (.Atomic c p, next) →
    n < fuel →
    parse_unary_loop fuel tokens negation_count curr
      = .ok (.Atomic (if (negation_count + n) % 2 = 1 then wrapInt (-c) else c) p, next) := by
  intro n
  induction n with
  | zero =>
    intro fuel cnt curr _ hatom hfuel
    obtain ⟨k, hk⟩ : ∃ k, fuel = k + 1 := ⟨fuel - 1, by omega⟩
    subst hk
    rw [Nat.add_zero] at hatom
    obtain ⟨t, ht, hty⟩ := parse_atomic_first_token _ _ _ _ _ _ hatom
    have hnm : ¬ t.ttype = .SD_MINUS := by
      rcases hty with h | h <;> (rw [h]; decide)
    rw [parse_unary_loop, ht]
    dsimp only
    rw [if_neg hnm, Nat.add_zero]
    by_cases hodd : cnt % 2 = 1
    · have hd : decide (cnt % 2 ≠ 0) = true := by simp; omega
      rw [hd, parse_atomic_negate _ _ _ _ hatom, if_pos hodd]
      simp [Expr.negated]
    · have hd : decide (cnt % 2 ≠ 0) = false := by simp; omega
      rw [hd, hatom, if_neg hodd]
  | succ m ih =>
    intro fuel cnt curr hminus hatom hfuel
    obtain ⟨k, hk⟩ : ∃ k, fuel = k + 1 := ⟨fuel - 1, by omega⟩
    subst hk
    obtain ⟨t, ht, hty⟩ := hminus 0 (by omega)
    rw [Nat.add_zero] at ht
    rw [parse_unary_loop, ht]
    dsimp only
    rw [if_pos hty]
    have hstep := ih k (cnt + 1) (curr + 1)
      (fun j hj => by
        have := hminus (j + 1) (by omega)
        rwa [show curr + (j + 1) = curr + 1 + j from by omega] at this)
      (by rwa [show curr + 1 + m = curr + (m + 1) from by omega])
      (by omega)
    rw [hstep, show cnt + 1 + m = cnt + (m + 1) from by omega]

theorem tokenAt_of_lt (tokens : List SD_token) (curr : Nat) (h : curr < tokens.length) :
    ∃ t, tokenAt tokens curr = .ok t ∧ t ∈ tokens := by
  refine ⟨tokens[curr], ?_, List.getElem_mem h⟩
  simp [tokenAt, List.get?_eq_getElem?, List.getElem?_eq_getElem h]

theorem tokenAt_mem (tokens : List SD_token) (curr : Nat) (t : SD_token)
    (h : tokenAt tokens curr = .ok t) : t ∈ tokens := by
  obtain ⟨t1, h1, hm⟩ := tokenAt_of_lt tokens curr (tokenAt_ok _ _ _ h)
  rw [h] at h1
  injection h1 with h1
  rw [h1]; exact hm

theorem stodInt_nonneg (literal : String) (n : Int)
    (hv : digitsValue literal.data < 2 ^ 31) (h : stodInt literal = .ok n) : 0 ≤ n := by
  unfold stodInt at h
  split_ifs at h
  injection h with h
  rw [← h]
  exact Int.natCast_nonneg _

theorem parse_atomic_rest_shape (ok : Int → Bool) (negate : Bool) (tokens : List SD_token)
    (hst : ∀ i t n, tokenAt tokens i = .ok t → t.ttype = .SD_NUMBER →
      stodInt t.literal = .ok n → ok n = true)
    (h1 : ok 1 = true) (b : Bool)
    (constant power : Int) (curr : Nat) (hp : ok power = true) (e : Expr) (next : Nat)
    (h : parse_atomic_rest negate tokens b constant power curr = .ok (e, next)) :
    e.isFailureOrTreeWith ok := by
  unfold parse_atomic_rest at h
  repeat' split at h
  all_goals first
    | exact Except.noConfusion h
    | (injection h with h; injection h with e1 e2; subst e1
       first
        | exact Or.inl ⟨_, rfl⟩
        | (right; simp only [mkAtomic, Expr.isTreeWith]
           first
            | exact hp
            | exact h1
            | exact hst _ _ _ (by assumption) (by assumption) (by assumption)))

theorem parse_atomic_shape (ok : Int → Bool) (negate : Bool) (tokens : List SD_token)
    (hst : ∀ i t n, tokenAt tokens i = .ok t → t.ttype = .SD_NUMBER →
      stodInt t.literal = .ok n → ok n = true)
    (h0 : ok 0 = true) (h1 : ok 1 = true) (curr : Nat) (e : Expr)
    (next : Nat) (h : parse_atomic negate tokens curr = .ok (e, next)) :
    e.isFailureOrTreeWith ok := by
  unfold parse_atomic at h
  split at h
  · exact Except.noConfusion h
  · split_ifs at h
    · split at h
      · exact Except.noConfusion h
      · exact parse_atomic_rest_shape ok _ _ hst h1 _ _ _ _ h0 _ _ h
    · exact parse_atomic_rest_shape ok _ _ hst h1 _ _ _ _ h1 _ _ h
    · injection h with h; injection h with e1 e2; subst e1
      exact Or.inl ⟨_, rfl⟩

theorem parse_unary_loop_shape (ok : Int → Bool) (tokens : List SD_token)
    (hst : ∀ i t n, tokenAt tokens i = .ok t → t.ttype = .SD_NUMBER →
      stodInt t.literal = .ok n → ok n = true)
    (h0 : ok 0 = true) (h1 : ok 1 = true) : ∀ (fuel negation_count curr : Nat)
    (e : Expr) (next : Nat),
    parse_unary_loop fuel tokens negation_count curr = .ok (e, next) →
    e.isFailureOrTreeWith ok := by
  intro fuel
  induction fuel with
  | zero => intro n curr e next h; exact Except.noConfusion h
  | succ k ih =>
    intro n curr e next h
    unfold parse_unary_loop at h
    split at h
    · exact Except.noConfusion h
    · split_ifs at h
      · exact ih _ _ _ _ h
      · exact parse_atomic_shape ok _ _ hst h0 h1 _ _ _ h

theorem Expr.isFailureOrTreeWith.tree_of_not_failure (ok : Int → Bool) (e : Expr)
    (h : e.isFailureOrTreeWith ok)
    (hnb : ∀ m, e = .Botched m → False) : e.isTreeWith ok = true := by
  rcases h with ⟨m, hm⟩ | h
  · exact absurd hm (hnb m)
  · exact h

theorem parse_factor_loop_shape (ok : Int → Bool) (tokens : List SD_token)
    (hst : ∀ i t n, tokenAt tokens i = .ok t → t.ttype = .SD_NUMBER →
      stodInt t.literal = .ok n → ok n = true)
    (h0 : ok 0 = true) (h1 : ok 1 = true) : ∀ (fuel : Nat) (left : Expr)
    (curr : Nat) (e : Expr) (next : Nat), left.isTreeWith ok = true →
    parse_factor_loop fuel tokens left curr = .ok (e, next) → e.isFailureOrTreeWith ok := by
  intro fuel
  induction fuel with
  | zero => intro left curr e next _ h; exact Except.noConfusion h
  | succ k ih =>
    intro left curr e next hl h
    unfold parse_factor_loop at h
    split at h
    · exact Except.noConfusion h
    · split_ifs at h
      · split at h
        · exact Except.noConfusion h
        · injection h with h; injection h with e1 e2; subst e1
          exact Or.inl ⟨_, rfl⟩
        · next right c1 hnb hr =>
          have hrt := (parse_unary_loop_shape ok tokens hst h0 h1 _ _ _ _ _
            hr).tree_of_not_failure ok _ hnb
          exact ih _ _ _ _ (by simp [Expr.isTreeWith, hl, hrt]) h
      · injection h with h; injection h with e1 e2; subst e1
        exact Or.inr hl

theorem parse_factor_shape (ok : Int → Bool) (tokens : List SD_token)
    (hst : ∀ i t n, tokenAt tokens i = .ok t → t.ttype = .SD_NUMBER →
      stodInt t.literal = .ok n → ok n = true)
    (h0 : ok 0 = true) (h1 : ok 1 = true) (fuel curr : Nat) (e : Expr) (next : Nat)
    (h : parse_factor fuel tokens curr = .ok (e, next)) : e.isFailureOrTreeWith ok := by
  unfold parse_factor at h
  split at h
  · exact Except.noConfusion h
  · injection h with h; injection h with e1 e2; subst e1
    exact Or.inl ⟨_, rfl⟩
  · next left c1 hnb hr =>
    have hlt := (parse_unary_loop_shape ok tokens hst h0 h1 _ _ _ _ _
      hr).tree_of_not_failure ok _ hnb
    exact parse_factor_loop_shape ok tokens hst h0 h1 _ _ _ _ _ hlt h

theorem parse_term_loop_shape (ok : Int → Bool) (tokens : List SD_token)
    (hst : ∀ i t n, tokenAt tokens i = .ok t → t.ttype = .SD_NUMBER →
      stodInt t.literal = .ok n → ok n = true)
    (h0 : ok 0 = true) (h1 : ok 1 = true) : ∀ (fuel : Nat) (left : Expr)
    (curr : Nat) (e : Expr) (next : Nat), left.isTreeWith ok = true →
    parse_term_loop fuel tokens left curr = .ok (e, next) → e.isFailureOrTreeWith ok := by
  intro fuel
  induction fuel with
  | zero => intro left curr e next _ h; exact Except.noConfusion h
  | succ k ih =>
    intro left curr e next hl h
    unfold parse_term_loop at h
    split at h
    · exact Except.noConfusion h
    · split_ifs at h
      · dsimp only at h
        split at h
        · exact Except.noConfusion h
        · injection h with h; injection h with e1 e2; subst e1
          exact Or.inl ⟨_, rfl⟩
        · next right c1 hnb hr =>
          have hrt := (parse_factor_shape ok tokens hst h0 h1 _ _ _ _
            hr).tree_of_not_failure ok _ hnb
          exact ih _ _ _ _ (by simp [Expr.isTreeWith, hl, hrt]) h
      · injection h with h; injection h with e1 e2; subst e1
        exact Or.inr hl

theorem parse_term_shape (ok : Int → Bool) (tokens : List SD_token)
    (hst : ∀ i t n, tokenAt tokens i = .ok t → t.ttype = .SD_NUMBER →
      stodInt t.literal = .ok n → ok n = true)
    (h0 : ok 0 = true) (h1 : ok 1 = true) (fuel curr : Nat) (e : Expr) (next : Nat)
    (h : parse_term fuel tokens curr = .ok (e, next)) : e.isFailureOrTreeWith ok := by
  unfold parse_term at h
  split at h
  · exact Except.noConfusion h
  · injection h with h; injection h with e1 e2; subst e1
    exact Or.inl ⟨_, rfl⟩
  · next left c1 hnb hr =>
    have hlt := (parse_factor_shape ok tokens hst h0 h1 _ _ _ _
      hr).tree_of_not_failure ok _ hnb
    exact parse_term_loop_shape ok tokens hst h0 h1 _ _ _ _ _ hlt h

theorem SD_parse_to_ast_shape (ok : Int → Bool) (tokens : List SD_token)
    (hst : ∀ i t n, tokenAt tokens i = .ok t → t.ttype = .SD_NUMBER →
      stodInt t.literal = .ok n → ok n = true)
    (h0 : ok 0 = true) (h1 : ok 1 = true) (e : Expr)
    (h : SD_parse_to_ast tokens = .ok e) : e.isFailureOrTreeWith ok := by
  unfold SD_parse_to_ast at h
  split at h
  · exact Except.noConfusion h
  · next ast c hb =>
    injection h with h; subst h
    unfold parse_binary at hb
    split at hb
    · exact Except.noConfusion hb
    · next binary c1 ht =>
      split at hb
      · exact Except.noConfusion hb
      · split_ifs at hb
        · injection hb with hb; injection hb with e1 e2; subst e1
          exact Or.inl ⟨_, rfl⟩
        · injection hb with hb; injection hb with e1 e2; subst e1
          exact parse_term_shape ok tokens hst h0 h1 _ _ _ _ ht

/-- Where no NUMBER literal has a value of `2 ^ 31` or more, every exponent of the tree
that `SD_parse_to_ast` returns is at least 0. -/
theorem SD_parse_to_ast_tree (tokens : List SD_token) (hv : ValuesFit tokens) (e : Expr)
    (h : SD_parse_to_ast tokens = .ok e) : e.isFailureOrTree :=
  SD_parse_to_ast_shape (fun power => decide (0 ≤ power)) tokens
    (fun i t n ht hty hs =>
      decide_eq_true (stodInt_nonneg _ _ (hv t (tokenAt_mem tokens i t ht) hty) hs))
    (by decide) (by decide) e h

/-! ## The parser on END-terminated token sequences -/

/-- In a sequence whose last token is END, a token that is not END is not the last. -/
theorem EndTerminated.step (tokens : List SD_token) (hend : EndTerminated tokens) (curr : Nat)
    (t : SD_token) (h : tokenAt tokens curr = .ok t) (hne : t.ttype ≠ .SD_ENDEXPR) :
    curr + 1 < tokens.length := by
  have hlt := tokenAt_ok _ _ _ h
  by_contra hcon
  have hlast : curr = tokens.length - 1 := by omega
  obtain ⟨t1, h1, h2⟩ := hend
  rw [List.getLast?_eq_getElem?, ← hlast] at h1
  have : tokenAt tokens curr = .ok t1 := by
    simp [tokenAt, List.get?_eq_getElem?, h1]
  rw [h] at this
  injection this with this
  exact hne (this ▸ h2)

theorem EndTerminated.pos (tokens : List SD_token) (hend : EndTerminated tokens) :
    0 < tokens.length := by
  obtain ⟨t1, h1, -⟩ := hend
  cases tokens with
  | nil => simp at h1
  | cons a l => simp

theorem stodInt_of_fits (literal : String) (h : literalFits literal = true) :
    stodInt literal = .ok (digitsValue literal.data) := by
  simp only [literalFits, Bool.and_eq_true, decide_eq_true_eq] at h
  obtain ⟨⟨h1, h2⟩, h3⟩ := h
  unfold stodInt
  rw [if_neg (by simp [h1, h2]), if_pos (by exact_mod_cast h3)]

theorem stodInt_of_converts (literal : String) (h : literalConverts literal = true) :
    ∃ n, stodInt literal = .ok n := by
  simp only [literalConverts, Bool.and_eq_true, decide_eq_true_eq] at h
  obtain ⟨⟨h1, h2⟩, h3⟩ := h
  unfold stodInt
  rw [if_neg (by simp [h1, h2])]
  split_ifs
  · exact ⟨_, rfl⟩
  · exact ⟨_, rfl⟩

theorem NumbersFit.converts (tokens : List SD_token) (hnum : NumbersFit tokens) :
    NumbersConvert tokens := by
  intro t ht hty
  have h := hnum t ht hty
  simp only [literalFits, Bool.and_eq_true, decide_eq_true_eq] at h
  obtain ⟨⟨h1, h2⟩, h3⟩ := h
  simp only [literalConverts, Bool.and_eq_true, decide_eq_true_eq]
  refine ⟨⟨h1, h2⟩, lt_trans h3 ?_⟩
  norm_num [doubleOverflow]

theorem NumbersFit.valuesFit (tokens : List SD_token) (hnum : NumbersFit tokens) :
    ValuesFit tokens := by
  intro t ht hty
  have h := hnum t ht hty
  simp only [literalFits, Bool.and_eq_true, decide_eq_true_eq] at h
  exact h.2

theorem parse_atomic_rest_returns (tokens : List SD_token) (hend : EndTerminated tokens)
    (hnum : NumbersConvert tokens) (negate b : Bool)
    (constant power : Int) (c0 : Nat) (hc : c0 + 1 < tokens.length) :
    Returns tokens (parse_atomic_rest negate tokens b constant power (c0 + 1)) := by
  obtain ⟨t1, ht1, -⟩ := tokenAt_of_lt tokens (c0 + 1) hc
  unfold parse_atomic_rest
  rw [ht1]
  dsimp only
  by_cases k1 : t1.ttype = .SD_CARET
  · rw [if_pos k1]
    have l2 : c0 + 1 + 1 < tokens.length :=
      hend.step tokens _ _ ht1 (by rw [k1]; decide)
    obtain ⟨t2, ht2, hm2⟩ := tokenAt_of_lt tokens (c0 + 1 + 1) l2
    rw [ht2]
    dsimp only
    by_cases k2 : t2.ttype = .SD_NUMBER
    · have l3 : c0 + 1 + 1 + 1 < tokens.length :=
        hend.step tokens _ _ ht2 (by rw [k2]; decide)
      obtain ⟨n2, hn2⟩ := stodInt_of_converts _ (hnum t2 hm2 k2)
      rw [if_pos k2, hn2]
      dsimp only
      cases b with
      | false => exact ⟨_, _, rfl, l3⟩
      | true => exact ⟨_, _, rfl, l3⟩
    · rw [if_neg k2]
      exact ⟨_, _, rfl, l2⟩
  · rw [if_neg k1]
    by_cases kv : t1.ttype = .SD_VARIABLE
    · rw [if_pos kv]
      have l2 : c0 + 1 + 1 < tokens.length :=
        hend.step tokens _ _ ht1 (by rw [kv]; decide)
      obtain ⟨t2, ht2, -⟩ := tokenAt_of_lt tokens (c0 + 1 + 1) l2
      rw [ht2]
      dsimp only
      by_cases k2 : t2.ttype = .SD_CARET
      · rw [if_pos k2]
        have l3 : c0 + 1 + 1 + 1 < tokens.length :=
          hend.step tokens _ _ ht2 (by rw [k2]; decide)
        obtain ⟨t3, ht3, hm3⟩ := tokenAt_of_lt tokens (c0 + 1 + 2) l3
        rw [ht3]
        dsimp only
        by_cases k3 : t3.ttype = .SD_NUMBER
        · have l4 : c0 + 1 + 2 + 1 < tokens.length :=
            hend.step tokens _ _ ht3 (by rw [k3]; decide)
          obtain ⟨n3, hn3⟩ := stodInt_of_converts _ (hnum t3 hm3 k3)
          rw [if_pos k3, hn3]
          exact ⟨_, _, rfl, l4⟩
        · rw [if_neg k3]
          exact ⟨_, _, rfl, l3⟩
      · rw [if_neg k2]
        exact ⟨_, _, rfl, l2⟩
    · rw [if_neg kv]
      exact ⟨_, _, rfl, hc⟩

theorem parse_atomic_returns (tokens : List SD_token) (hend : EndTerminated tokens)
    (hnum : NumbersConvert tokens) (negate : Bool) (curr : Nat)
    (hc : curr < tokens.length) : Returns tokens (parse_atomic negate tokens curr) := by
  obtain ⟨t0, ht0, hm0⟩ := tokenAt_of_lt tokens curr hc
  unfold parse_atomic
  rw [ht0]
  dsimp only
  by_cases k0 : t0.ttype = .SD_NUMBER
  · obtain ⟨n0, hn0⟩ := stodInt_of_converts _ (hnum t0 hm0 k0)
    rw [if_pos k0, hn0]
    dsimp only
    exact parse_atomic_rest_returns tokens hend hnum _ _ _ _ curr
      (hend.step tokens _ _ ht0 (by rw [k0]; decide))
  · rw [if_neg k0]
    by_cases kv : t0.ttype = .SD_VARIABLE
    · rw [if_pos kv]
      exact parse_atomic_rest_returns tokens hend hnum _ _ _ _ curr
        (hend.step tokens _ _ ht0 (by rw [kv]; decide))
    · rw [if_neg kv]
      exact ⟨_, _, rfl, hc⟩

theorem parse_unary_loop_returns (tokens : List SD_token) (hend : EndTerminated tokens)
    (hnum : NumbersConvert tokens) :
    ∀ (fuel negation_count curr : Nat), curr < tokens.length → tokens.length < fuel + curr →
    Returns tokens (parse_unary_loop fuel tokens negation_count curr) := by
  intro fuel
  induction fuel with
  | zero => intro n curr h1 h2; omega
  | succ k ih =>
    intro n curr h1 h2
    obtain ⟨t, ht, -⟩ := tokenAt_of_lt tokens curr h1
    unfold parse_unary_loop
    rw [ht]
    dsimp only
    by_cases km : t.ttype = .SD_MINUS
    · rw [if_pos km]
      exact ih _ _ (hend.step tokens _ _ ht (by rw [km]; decide)) (by omega)
    · rw [if_neg km]
      exact parse_atomic_returns tokens hend hnum _ curr h1

theorem parse_unary_returns (tokens : List SD_token) (hend : EndTerminated tokens)
    (hnum : NumbersConvert tokens) (fuel curr : Nat)
    (h1 : curr < tokens.length) (h2 : tokens.length < fuel + curr) :
    ∃ e next, parse_unary fuel tokens curr = .ok (e, next) ∧ next < tokens.length ∧
      ((∀ m, e ≠ .Botched m) → curr < next) := by
  obtain ⟨e, next, hr, hlt⟩ := parse_unary_loop_returns tokens hend hnum fuel 0 curr h1 h2
  exact ⟨e, next, hr, hlt,
    (parse_unary_advances tokens fuel curr (Nat.le_of_lt h1) h2).2 e next hr⟩

theorem parse_factor_loop_returns (tokens : List SD_token) (hend : EndTerminated tokens)
    (hnum : NumbersConvert tokens) :
    ∀ (fuel : Nat) (left : Expr) (curr : Nat), curr < tokens.length →
    tokens.length < fuel + curr →
    Returns tokens (parse_factor_loop fuel tokens left curr) := by
  intro fuel
  induction fuel with
  | zero => intro left curr h1 h2; omega
  | succ k ih =>
    intro left curr h1 h2
    obtain ⟨t, ht, -⟩ := tokenAt_of_lt tokens curr h1
    unfold parse_factor_loop
    rw [ht]
    dsimp only
    by_cases km : t.ttype = .SD_MULTIPLY
    · rw [if_pos km]
      have l1 := hend.step tokens _ _ ht (by rw [km]; decide)
      obtain ⟨right, c1, hr, hlt, hadv⟩ :=
        parse_unary_returns tokens hend hnum k (curr + 1) l1 (by omega)
      rw [hr]
      cases right with
      | Botched m => exact ⟨_, _, rfl, hlt⟩
      | Atomic c p =>
        have := hadv (fun m hm => Expr.noConfusion hm)
        exact ih _ c1 hlt (by omega)
      | Binary op l r =>
        have := hadv (fun m hm => Expr.noConfusion hm)
        exact ih _ c1 hlt (by omega)
      | null =>
        have := hadv (fun m hm => Expr.noConfusion hm)
        exact ih _ c1 hlt (by omega)
    · rw [if_neg km]
      exact ⟨_, _, rfl, h1⟩

theorem parse_factor_returns (tokens : List SD_token) (hend : EndTerminated tokens)
    (hnum : NumbersConvert tokens) (fuel curr : Nat)
    (h1 : curr < tokens.length) (h2 : tokens.length < fuel + curr) :
    ∃ e next, parse_factor fuel tokens curr = .ok (e, next) ∧ next < tokens.length ∧
      ((∀ m, e ≠ .Botched m) → curr < next) := by
  have hres : Returns tokens (parse_factor fuel tokens curr) := by
    obtain ⟨left, c1, hr, hlt, hadv⟩ :=
      parse_unary_returns tokens hend hnum fuel curr h1 h2
    unfold parse_factor
    rw [hr]
    cases left with
    | Botched m => exact ⟨_, _, rfl, hlt⟩
    | Atomic c p =>
      have := hadv (fun m hm => Expr.noConfusion hm)
      exact parse_factor_loop_returns tokens hend hnum _ _ c1 hlt (by omega)
    | Binary op l r =>
      have := hadv (fun m hm => Expr.noConfusion hm)
      exact parse_factor_loop_returns tokens hend hnum _ _ c1 hlt (by omega)
    | null =>
      have := hadv (fun m hm => Expr.noConfusion hm)
      exact parse_factor_loop_returns tokens hend hnum _ _ c1 hlt (by omega)
  obtain ⟨e, next, hr, hlt⟩ := hres
  exact ⟨e, next, hr, hlt,
    (parse_factor_advances tokens fuel curr (Nat.le_of_lt h1) h2).2 e next hr⟩

theorem parse_term_loop_returns (tokens : List SD_token) (hend : EndTerminated tokens)
    (hnum : NumbersConvert tokens) :
    ∀ (fuel : Nat) (left : Expr) (curr : Nat), curr < tokens.length →
    tokens.length < fuel + curr →
    Returns tokens (parse_term_loop fuel tokens left curr) := by
  intro fuel
  induction fuel with
  | zero => intro left curr h1 h2; omega
  | succ k ih =>
    intro left curr h1 h2
    obtain ⟨t, ht, -⟩ := tokenAt_of_lt tokens curr h1
    unfold parse_term_loop
    rw [ht]
    dsimp only
    by_cases km : t.ttype = .SD_MINUS ∨ t.ttype = .SD_PLUS
    · rw [if_pos km]
      have l1 := hend.step tokens _ _ ht (by rcases km with h | h <;> (rw [h]; decide))
      obtain ⟨right, c1, hr, hlt, hadv⟩ :=
        parse_factor_returns tokens hend hnum k (curr + 1) l1 (by omega)
      rw [hr]
      cases right with
      | Botched m => exact ⟨_, _, rfl, hlt⟩
      | Atomic c p =>
        have := hadv (fun m hm => Expr.noConfusion hm)
        exact ih _ c1 hlt (by omega)
      | Binary op l r =>
        have := hadv (fun m hm => Expr.noConfusion hm)
        exact ih _ c1 hlt (by omega)
      | null =>
        have := hadv (fun m hm => Expr.noConfusion hm)
        exact ih _ c1 hlt (by omega)
    · rw [if_neg km]
      exact ⟨_, _, rfl, h1⟩

theorem parse_term_returns (tokens : List SD_token) (hend : EndTerminated tokens)
    (hnum : NumbersConvert tokens) (fuel curr : Nat)
    (h1 : curr < tokens.length) (h2 : tokens.length < fuel + curr) :
    Returns tokens (parse_term fuel tokens curr) := by
  obtain ⟨left, c1, hr, hlt, hadv⟩ :=
    parse_factor_returns tokens hend hnum fuel curr h1 h2
  unfold parse_term
  rw [hr]
  cases left with
  | Botched m => exact ⟨_, _, rfl, hlt⟩
  | Atomic c p =>
    have := hadv (fun m hm => Expr.noConfusion hm)
    exact parse_term_loop_returns tokens hend hnum _ _ c1 hlt (by omega)
  | Binary op l r =>
    have := hadv (fun m hm => Expr.noConfusion hm)
    exact parse_term_loop_returns tokens hend hnum _ _ c1 hlt (by omega)
  | null =>
    have := hadv (fun m hm => Expr.noConfusion hm)
    exact parse_term_loop_returns tokens hend hnum _ _ c1 hlt (by omega)

/-- On an END-terminated token sequence whose NUMBER literals are digit runs that
`std::stod` converts, `SD_parse_to_ast` returns a node: no access `tokens[curr]` is out
of bounds, no conversion throws and the model's fuel is not used up. -/
theorem SD_parse_to_ast_returns (tokens : List SD_token) (hend : EndTerminated tokens)
    (hnum : NumbersConvert tokens) :
    ∃ e, SD_parse_to_ast tokens = .ok e := by
  obtain ⟨binary, c1, hr, hlt⟩ := parse_term_returns tokens hend hnum
    (tokens.length + 1) 0 (hend.pos tokens) (by omega)
  obtain ⟨t, ht, -⟩ := tokenAt_of_lt tokens c1 hlt
  unfold SD_parse_to_ast parse_binary
  rw [hr]
  dsimp only
  rw [ht]
  dsimp only
  split_ifs
  · exact ⟨_, rfl⟩
  · exact ⟨_, rfl⟩

/-- C17: for every non-empty token sequence whose last token is END and whose NUMBER
literals are non-empty digit runs with values that fit in an `int`, `SD_parse_to_ast`
terminates and returns a tree or a failure node; no access `tokens[curr]` is out of
bounds, no conversion throws and the fuel of the model is not used up. -/
theorem SD_parse_to_ast_safe (tokens : List SD_token) (hend : EndTerminated tokens)
    (hnum : NumbersFit tokens) :
    (∃ e, SD_parse_to_ast tokens = .ok e ∧ e.isFailureOrTree) ∧
    SD_parse_to_ast tokens ≠ .error .outOfBounds ∧
    SD_parse_to_ast tokens ≠ .error .stodArgument ∧
    SD_parse_to_ast tokens ≠ .error .stodRange ∧
    SD_parse_to_ast tokens ≠ .error .outOfFuel := by
  obtain ⟨e, he⟩ := SD_parse_to_ast_returns tokens hend hnum.converts
  refine ⟨⟨e, he, SD_parse_to_ast_tree tokens hnum.valuesFit e he⟩, ?_, ?_, ?_, ?_⟩ <;>
    (rw [he]; exact fun h => Except.noConfusion h)

theorem SD_parse_to_ast_safe_witness :
    ∃ e, SD_parse_to_ast
        [⟨.SD_NUMBER, "2"⟩, ⟨.SD_CARET, "^"⟩, ⟨.SD_NUMBER, "31"⟩, ⟨.SD_MULTIPLY, "*"⟩,
         ⟨.SD_ENDEXPR, "$"⟩] = .ok e ∧ e.isFailureOrTree :=
  (SD_parse_to_ast_safe
    [⟨.SD_NUMBER, "2"⟩, ⟨.SD_CARET, "^"⟩, ⟨.SD_NUMBER, "31"⟩, ⟨.SD_MULTIPLY, "*"⟩,
     ⟨.SD_ENDEXPR, "$"⟩] ⟨_, rfl, rfl⟩ (by unfold NumbersFit; decide)).1

theorem UnaryAt.parse_unary_eq (tokens : List SD_token) (curr : Nat) (u : Expr) (next fuel : Nat)
    (h : UnaryAt tokens curr u next) (hfuel : tokens.length < fuel + curr) :
    parse_unary fuel tokens curr = .ok (u, next) ∧ curr < next ∧ next ≤ tokens.length ∧
      ∃ c p, u = .Atomic c p := by
  obtain ⟨n, c, p, hm, ha, hu⟩ := h
  have hadv := parse_atomic_advances false tokens (curr + n)
  have h1 := hadv.2 _ _ ha (fun m hm => Expr.noConfusion hm)
  have h2 := (hadv.1.2 _ _ ha).2
  have hp := parse_unary_loop_minus_run tokens c p next n fuel 0 curr hm ha (by omega)
  rw [Nat.zero_add] at hp
  rw [hu]
  exact ⟨hp, by omega, h2, _, _, rfl⟩

theorem parse_factor_loop_step (tokens : List SD_token) (fuel : Nat) (left : Expr)
    (curr : Nat) (t : SD_token) (right : Expr) (c1 : Nat)
    (ht : tokenAt tokens curr = .ok t) (hty : t.ttype = .SD_MULTIPLY)
    (hr : parse_unary fuel tokens (curr + 1) = .ok (right, c1))
    (hnb : ∀ m, right ≠ .Botched m) :
    parse_factor_loop (fuel + 1) tokens left curr
      = parse_factor_loop fuel tokens (.Binary '*' left right) c1 := by
  rw [parse_factor_loop, ht]
  dsimp only
  rw [if_pos hty, hr]
  cases right with
  | Botched m => exact absurd rfl (hnb m)
  | Atomic c p => rfl
  | Binary op l r => rfl
  | null => rfl

theorem parse_factor_loop_exit (tokens : List SD_token) (fuel : Nat) (left : Expr)
    (curr : Nat) (t : SD_token) (ht : tokenAt tokens curr = .ok t)
    (hty : t.ttype ≠ .SD_MULTIPLY) :
    parse_factor_loop (fuel + 1) tokens left curr = .ok (left, curr) := by
  rw [parse_factor_loop, ht]
  dsimp only
  rw [if_neg hty]

theorem StarRun.parse_factor_loop_eq (tokens : List SD_token) (mid : Nat) (us : List Expr) (next : Nat)
    (h : StarRun tokens mid us next) :
    ∀ (fuel : Nat) (left : Expr) (t1 : SD_token), tokenAt tokens next = .ok t1 →
    t1.ttype ≠ .SD_MULTIPLY → tokens.length < fuel + mid →
    parse_factor_loop fuel tokens left mid = .ok (productTree left us, next) ∧ mid ≤ next := by
  induction h with
  | nil curr =>
    intro fuel left t1 ht1 hne hfuel
    have hlt := tokenAt_ok _ _ _ ht1
    obtain ⟨k, hk⟩ : ∃ k, fuel = k + 1 := ⟨fuel - 1, by omega⟩
    subst hk
    exact ⟨parse_factor_loop_exit tokens k left curr t1 ht1 hne, Nat.le_refl _⟩
  | cons ht hty hu _ ih =>
    intro fuel left t1 ht1 hne hfuel
    have hlt := tokenAt_ok _ _ _ ht
    obtain ⟨k, hk⟩ : ∃ k, fuel = k + 1 := ⟨fuel - 1, by omega⟩
    subst hk
    obtain ⟨hp, h1, h2, c, p, hcp⟩ := UnaryAt.parse_unary_eq tokens _ _ _ k hu (by omega)
    have hstep := parse_factor_loop_step tokens k left _ _ _ _ ht hty hp
      (fun m hm => by rw [hcp] at hm; exact Expr.noConfusion hm)
    obtain ⟨hrec, hle⟩ := ih k (.Binary '*' left _) t1 ht1 hne (by omega)
    rw [hstep, hrec]
    exact ⟨rfl, by omega⟩

theorem productTree_ne_botched (u : Expr) (us : List Expr) (hu : ∃ c p, u = .Atomic c p) :
    ∀ m, productTree u us ≠ .Botched m := by
  intro m
  obtain ⟨c, p, hcp⟩ := hu
  subst hcp
  induction us using List.reverseRecOn with
  | nil => exact fun h => Expr.noConfusion h
  | append_singleton l a _ =>
    simp only [productTree, List.foldl_append, List.foldl_cons, List.foldl_nil]
    exact fun h => Expr.noConfusion h

theorem FactorAt.parse_factor_eq (tokens : List SD_token) (curr : Nat) (u : Expr) (us : List Expr)
    (next fuel : Nat) (h : FactorAt tokens curr u us next) (t1 : SD_token)
    (ht1 : tokenAt tokens next = .ok t1) (hne : t1.ttype ≠ .SD_MULTIPLY)
    (hfuel : tokens.length < fuel + curr) :
    parse_factor fuel tokens curr = .ok (productTree u us, next) ∧ curr < next ∧
      ∃ c p, u = .Atomic c p := by
  obtain ⟨mid, hu, hs⟩ := h
  obtain ⟨hp, h1, h2, c, p, hcp⟩ := UnaryAt.parse_unary_eq tokens curr u mid fuel hu hfuel
  obtain ⟨hl, hle⟩ := StarRun.parse_factor_loop_eq tokens mid us next hs fuel u t1 ht1 hne (by omega)
  refine ⟨?_, by omega, c, p, hcp⟩
  rw [parse_factor, hp]
  subst hcp
  exact hl

theorem parse_term_loop_step (tokens : List SD_token) (fuel : Nat) (left : Expr)
    (curr : Nat) (t : SD_token) (op : Char) (right : Expr) (c1 : Nat)
    (ht : tokenAt tokens curr = .ok t)
    (hty : (t = ⟨.SD_PLUS, "+"⟩ ∧ op = '+') ∨ (t = ⟨.SD_MINUS, "-"⟩ ∧ op = '-'))
    (hr : parse_factor fuel tokens (curr + 1) = .ok (right, c1))
    (hnb : ∀ m, right ≠ .Botched m) :
    parse_term_loop (fuel + 1) tokens left curr
      = parse_term_loop fuel tokens (.Binary op left right) c1 := by
  have hcond : t.ttype = .SD_MINUS ∨ t.ttype = .SD_PLUS := by
    rcases hty with ⟨h, -⟩ | ⟨h, -⟩ <;> (rw [h]; decide)
  have hop : t.literal.data.headD '\x00' = op := by
    rcases hty with ⟨h, h1⟩ | ⟨h, h1⟩ <;> (rw [h, h1]; rfl)
  rw [parse_term_loop, ht]
  dsimp only
  rw [if_pos hcond, hr, hop]
  cases right with
  | Botched m => exact absurd rfl (hnb m)
  | Atomic c p => rfl
  | Binary o l r => rfl
  | null => rfl

theorem parse_term_loop_exit (tokens : List SD_token) (fuel : Nat) (left : Expr)
    (curr : Nat) (t : SD_token) (ht : tokenAt tokens curr = .ok t)
    (hty : t.ttype = .SD_ENDEXPR) :
    parse_term_loop (fuel + 1) tokens left curr = .ok (left, curr) := by
  rw [parse_term_loop, ht]
  dsimp only
  rw [if_neg (by rw [hty]; decide)]

/-- The token a run `o1 f1 ... ok fk` followed by END starts at is `+`, `-` or END. -/
theorem SumRun.first_token (tokens : List SD_token) (mid : Nat)
    (rest : List (Char × Expr × List Expr)) (next : Nat) (h : SumRun tokens mid rest next)
    (t1 : SD_token) (ht1 : tokenAt tokens next = .ok t1) (hend : t1.ttype = .SD_ENDEXPR) :
    ∃ t, tokenAt tokens mid = .ok t ∧ t.ttype ≠ .SD_MULTIPLY := by
  cases h with
  | nil => exact ⟨t1, ht1, by rw [hend]; decide⟩
  | cons ht hty _ _ =>
    refine ⟨_, ht, ?_⟩
    rcases hty with ⟨h, -⟩ | ⟨h, -⟩ <;> (rw [h]; decide)

theorem SumRun.parse_term_loop_eq (tokens : List SD_token) (mid : Nat)
    (rest : List (Char × Expr × List Expr)) (next : Nat) (h : SumRun tokens mid rest next) :
    ∀ (fuel : Nat) (left : Expr) (t1 : SD_token), tokenAt tokens next = .ok t1 →
    t1.ttype = .SD_ENDEXPR → tokens.length < fuel + mid →
    parse_term_loop fuel tokens left mid
      = .ok (rest.foldl (fun acc f => .Binary f.1 acc (productTree f.2.1 f.2.2)) left, next) := by
  induction h with
  | nil curr =>
    intro fuel left t1 ht1 hend hfuel
    have hlt := tokenAt_ok _ _ _ ht1
    obtain ⟨k, hk⟩ : ∃ k, fuel = k + 1 := ⟨fuel - 1, by omega⟩
    subst hk
    exact parse_term_loop_exit tokens k left curr t1 ht1 hend
  | cons ht hty hf hrest ih =>
    intro fuel left t1 ht1 hend hfuel
    have hlt := tokenAt_ok _ _ _ ht
    obtain ⟨k, hk⟩ : ∃ k, fuel = k + 1 := ⟨fuel - 1, by omega⟩
    subst hk
    obtain ⟨t2, ht2, hne2⟩ := SumRun.first_token tokens _ _ _ hrest t1 ht1 hend
    obtain ⟨hp, h1, hatom⟩ := FactorAt.parse_factor_eq tokens _ _ _ _ k hf t2 ht2 hne2 (by omega)
    have hstep := parse_term_loop_step tokens k left _ _ _ _ _ ht hty hp
      (productTree_ne_botched _ _ hatom)
    rw [hstep, ih k _ t1 ht1 hend (by omega)]
    rfl

theorem sumTree_ne_botched (u : Expr) (us : List Expr)
    (rest : List (Char × Expr × List Expr)) (hu : ∃ c p, u = .Atomic c p) :
    ∀ m, sumTree u us rest ≠ .Botched m := by
  intro m
  induction rest using List.reverseRecOn with
  | nil => exact productTree_ne_botched u us hu m
  | append_singleton l a _ =>
    simp only [sumTree, List.foldl_append, List.foldl_cons, List.foldl_nil]
    exact fun h => Expr.noConfusion h

/-- On a well-formed token sequence the parser returns the left-leaning tree. -/
theorem WellFormed.parse_to_ast_eq (tokens : List SD_token) (u : Expr) (us : List Expr)
    (rest : List (Char × Expr × List Expr)) (h : WellFormed tokens u us rest) :
    SD_parse_to_ast tokens = .ok (sumTree u us rest) := by
  obtain ⟨mid, next, t, hf, hs, ht, hend⟩ := h
  obtain ⟨t2, ht2, hne2⟩ := SumRun.first_token tokens _ _ _ hs t ht hend
  obtain ⟨hp, h1, hatom⟩ :=
    FactorAt.parse_factor_eq tokens 0 u us mid (tokens.length + 1) hf t2 ht2 hne2 (by omega)
  have hl := SumRun.parse_term_loop_eq tokens mid rest next hs (tokens.length + 1) (productTree u us) t ht
    hend (by omega)
  have hterm : parse_term (tokens.length + 1) tokens 0 = .ok (sumTree u us rest, next) := by
    rw [parse_term, hp]
    unfold sumTree
    have hnb := productTree_ne_botched u us hatom
    revert hnb hl
    generalize productTree u us = left
    intro hl hnb
    cases left with
    | Botched m => exact absurd rfl (hnb m)
    | Atomic c p => exact hl
    | Binary o l r => exact hl
    | null => exact hl
  simp only [SD_parse_to_ast, parse_binary, hterm, ht, hend, ne_eq, not_true_eq_false,
    if_false]

theorem UnaryAt.atom (tokens : List SD_token) (curr : Nat) (u : Expr) (next : Nat)
    (h : UnaryAt tokens curr u next) : ∃ c p, u = .Atomic c p := by
  obtain ⟨n, c, p, -, -, hu⟩ := h
  exact ⟨_, _, hu⟩

theorem StarRun.atoms (tokens : List SD_token) (mid : Nat) (us : List Expr) (next : Nat)
    (h : StarRun tokens mid us next) : ∀ v ∈ us, ∃ c p, v = .Atomic c p := by
  induction h with
  | nil curr => intro v hv; simp at hv
  | cons _ _ hu _ ih =>
    intro v hv
    rcases List.mem_cons.mp hv with h | h
    · rw [h]; exact UnaryAt.atom tokens _ _ _ hu
    · exact ih v h

theorem productTree_starRightAtomic (u : Expr) (us : List Expr)
    (hu : ∃ c p, u = .Atomic c p) (hus : ∀ v ∈ us, ∃ c p, v = .Atomic c p) :
    (productTree u us).starRightAtomic = true := by
  induction us using List.reverseRecOn with
  | nil =>
    obtain ⟨c, p, hcp⟩ := hu
    rw [hcp]; rfl
  | append_singleton l a ih =>
    obtain ⟨c, p, hcp⟩ := hus a (by simp)
    have hl := ih (fun v hv => hus v (by simp [hv]))
    simp only [productTree, List.foldl_append, List.foldl_cons, List.foldl_nil] at hl ⊢
    rw [hcp]
    simp [Expr.starRightAtomic, hl]

theorem SumRun.factors (tokens : List SD_token) (mid : Nat)
    (rest : List (Char × Expr × List Expr)) (next : Nat) (h : SumRun tokens mid rest next) :
    ∀ f ∈ rest, (f.1 = '+' ∨ f.1 = '-') ∧ (∃ c p, f.2.1 = .Atomic c p) ∧
      ∀ v ∈ f.2.2, ∃ c p, v = .Atomic c p := by
  induction h with
  | nil curr => intro f hf; simp at hf
  | cons _ hty hfac _ ih =>
    intro f hf
    rcases List.mem_cons.mp hf with h | h
    · rw [h]
      obtain ⟨m, hu, hs⟩ := hfac
      refine ⟨?_, UnaryAt.atom tokens _ _ _ hu, StarRun.atoms tokens _ _ _ hs⟩
      rcases hty with ⟨-, h1⟩ | ⟨-, h1⟩
      · exact Or.inl h1
      · exact Or.inr h1
    · exact ih f h

theorem sumTree_starRightAtomic (u : Expr) (us : List Expr)
    (rest : List (Char × Expr × List Expr))
    (hu : ∃ c p, u = .Atomic c p) (hus : ∀ v ∈ us, ∃ c p, v = .Atomic c p)
    (hrest : ∀ f ∈ rest, (f.1 = '+' ∨ f.1 = '-') ∧ (∃ c p, f.2.1 = .Atomic c p) ∧
      ∀ v ∈ f.2.2, ∃ c p, v = .Atomic c p) :
    (sumTree u us rest).starRightAtomic = true := by
  induction rest using List.reverseRecOn with
  | nil => exact productTree_starRightAtomic u us hu hus
  | append_singleton l a ih =>
    obtain ⟨hop, hau, haus⟩ := hrest a (by simp)
    have hl := ih (fun f hf => hrest f (by simp [hf]))
    have hr := productTree_starRightAtomic a.2.1 a.2.2 hau haus
    have hne : a.1 ≠ '*' := by
      rcases hop with h | h <;> (rw [h]; decide)
    simp only [sumTree, List.foldl_append, List.foldl_cons, List.foldl_nil] at hl ⊢
    simp [Expr.starRightAtomic, hl, hr, hne]

/-- C14: on a well-formed token sequence `f o1 f1 ... ok fk END`, where each `oi` is the
token `+` or `-` and each factor is a run `u * u1 * ... * um` of unary operands,
`SD_parse_to_ast` returns the left-leaning tree over the factors in which every `Binary`
carries the operator consumed and every factor is the left-leaning tree of its operands
under `*`; the operands of `+` and `-` are whole products, and the right operand of every
`*` node is an `Atomic`. -/
theorem SD_parse_to_ast_left_leaning (tokens : List SD_token) (u : Expr) (us : List Expr)
    (rest : List (Char × Expr × List Expr)) (h : WellFormed tokens u us rest) :
    SD_parse_to_ast tokens
      = .ok (rest.foldl (fun acc f => .Binary f.1 acc (f.2.2.foldl (.Binary '*') f.2.1))
          (us.foldl (.Binary '*') u)) ∧
    (sumTree u us rest).starRightAtomic = true ∧
    (∀ f ∈ rest, f.1 = '+' ∨ f.1 = '-') := by
  have hparse := WellFormed.parse_to_ast_eq tokens u us rest h
  obtain ⟨mid, next, t, hf, hs, ht, hend⟩ := h
  obtain ⟨m, hu, hstar⟩ := hf
  have hfac := SumRun.factors tokens _ _ _ hs
  exact ⟨hparse,
    sumTree_starRightAtomic u us rest (UnaryAt.atom tokens _ _ _ hu)
      (StarRun.atoms tokens _ _ _ hstar) hfac,
    fun f hf => (hfac f hf).1⟩

theorem SD_parse_to_ast_left_leaning_witness :
    SD_parse_to_ast
        [⟨.SD_VARIABLE, "120"⟩, ⟨.SD_MULTIPLY, "*"⟩, ⟨.SD_MINUS, "-"⟩, ⟨.SD_NUMBER, "2"⟩,
         ⟨.SD_MINUS, "-"⟩, ⟨.SD_NUMBER, "3"⟩, ⟨.SD_ENDEXPR, "$"⟩]
      = .ok (.Binary '-' (.Binary '*' (.Atomic 1 1) (.Atomic (-2) 0)) (.Atomic 3 0)) := by
  have u0 : UnaryAt
      [⟨.SD_VARIABLE, "120"⟩, ⟨.SD_MULTIPLY, "*"⟩, ⟨.SD_MINUS, "-"⟩, ⟨.SD_NUMBER, "2"⟩,
       ⟨.SD_MINUS, "-"⟩, ⟨.SD_NUMBER, "3"⟩, ⟨.SD_ENDEXPR, "$"⟩] 0 (.Atomic 1 1) 1 :=
    ⟨0, 1, 1, fun j hj => absurd hj (Nat.not_lt_zero j), by decide, by decide⟩
  have u1 : UnaryAt
      [⟨.SD_VARIABLE, "120"⟩, ⟨.SD_MULTIPLY, "*"⟩, ⟨.SD_MINUS, "-"⟩, ⟨.SD_NUMBER, "2"⟩,
       ⟨.SD_MINUS, "-"⟩, ⟨.SD_NUMBER, "3"⟩, ⟨.SD_ENDEXPR, "$"⟩] (1 + 1) (.Atomic (-2) 0) 4 :=
    ⟨1, 2, 0, fun j hj => by interval_cases j; exact ⟨_, rfl, rfl⟩, by decide, by decide⟩
  have u2 : UnaryAt
      [⟨.SD_VARIABLE, "120"⟩, ⟨.SD_MULTIPLY, "*"⟩, ⟨.SD_MINUS, "-"⟩, ⟨.SD_NUMBER, "2"⟩,
       ⟨.SD_MINUS, "-"⟩, ⟨.SD_NUMBER, "3"⟩, ⟨.SD_ENDEXPR, "$"⟩] (4 + 1) (.Atomic 3 0) 6 :=
    ⟨0, 3, 0, fun j hj => absurd hj (Nat.not_lt_zero j), by decide, by decide⟩
  have k1 : tokenAt
      [⟨.SD_VARIABLE, "120"⟩, ⟨.SD_MULTIPLY, "*"⟩, ⟨.SD_MINUS, "-"⟩, ⟨.SD_NUMBER, "2"⟩,
       ⟨.SD_MINUS, "-"⟩, ⟨.SD_NUMBER, "3"⟩, ⟨.SD_ENDEXPR, "$"⟩] 1 = .ok ⟨.SD_MULTIPLY, "*"⟩ := by decide
  have k4 : tokenAt
      [⟨.SD_VARIABLE, "120"⟩, ⟨.SD_MULTIPLY, "*"⟩, ⟨.SD_MINUS, "-"⟩, ⟨.SD_NUMBER, "2"⟩,
       ⟨.SD_MINUS, "-"⟩, ⟨.SD_NUMBER, "3"⟩, ⟨.SD_ENDEXPR, "$"⟩] 4 = .ok ⟨.SD_MINUS, "-"⟩ := by decide
  have k6 : tokenAt
      [⟨.SD_VARIABLE, "120"⟩, ⟨.SD_MULTIPLY, "*"⟩, ⟨.SD_MINUS, "-"⟩, ⟨.SD_NUMBER, "2"⟩,
       ⟨.SD_MINUS, "-"⟩, ⟨.SD_NUMBER, "3"⟩, ⟨.SD_ENDEXPR, "$"⟩] 6 = .ok ⟨.SD_ENDEXPR, "$"⟩ := by decide
  have s1 : StarRun
      [⟨.SD_VARIABLE, "120"⟩, ⟨.SD_MULTIPLY, "*"⟩, ⟨.SD_MINUS, "-"⟩, ⟨.SD_NUMBER, "2"⟩,
       ⟨.SD_MINUS, "-"⟩, ⟨.SD_NUMBER, "3"⟩, ⟨.SD_ENDEXPR, "$"⟩] 1 [.Atomic (-2) 0] 4 :=
    StarRun.cons k1 rfl u1 (StarRun.nil 4)
  have r1 : SumRun
      [⟨.SD_VARIABLE, "120"⟩, ⟨.SD_MULTIPLY, "*"⟩, ⟨.SD_MINUS, "-"⟩, ⟨.SD_NUMBER, "2"⟩,
       ⟨.SD_MINUS, "-"⟩, ⟨.SD_NUMBER, "3"⟩, ⟨.SD_ENDEXPR, "$"⟩] 4
      [('-', .Atomic 3 0, [])] 6 :=
    SumRun.cons k4 (Or.inr ⟨rfl, rfl⟩) ⟨6, u2, StarRun.nil 6⟩ (SumRun.nil 6)
  exact (SD_parse_to_ast_left_leaning _ (.Atomic 1 1) [.Atomic (-2) 0]
    [('-', .Atomic 3 0, [])] ⟨4, 6, _, ⟨1, u0, s1⟩, r1, k6, rfl⟩).1

end SymbDiff
